import Mathlib

/-!
Verification development for the EntityManager core
(src/EntityManager.h, src/EntityManager.cpp, src/EntityReference.h/.cpp).

The C++ code is shallowly embedded here:

* An EnTT entity is an (index, generation) pair (`EntityId`).  The 32-bit
  packed representation used on the wire is a bijection with these pairs,
  so blocks store `EntityId` values directly.
* The EnTT registry (an external sparse-set container, out of scope of the
  repository, modelled from its documented interface) becomes `Reg`:
  a list of live entities plus association lists for the
  `EntityMaterialized` tag (entity -> handle id, the weak reference),
  the persisted `MaterializationStatus` flag, and the user component
  storages (type name -> list of (entity, payload)).  Registry operations
  that carry an assertion in EnTT (`emplace`, `emplace_or_replace`,
  `replace`, `remove` require a valid entity; `emplace` additionally
  requires absence) are `Option`-valued: `none` models the assertion
  failure.  `create(hint)` returns exactly the hint (index and generation)
  whenever the hint's index is not in use, and a fresh identifier
  otherwise; fresh allocation is modelled with a never-reused index
  counter, which agrees with EnTT for the operations modelled here (none
  of them destroys individual entities).
* `EntityReference` (scene-side handle) becomes `Handle`: an identity
  (`hid`, standing for the object address) plus the claimed entity id
  (`none` models `entt::null`).  Scene nodes and signal emission have no
  effect on the registry state and are modelled only where a claim needs
  them (the scene-tree model at the end of the file).
* The manager (`EntityManager`) becomes `MState`: registry, registered
  factories, alive handles, the pending queues, the dirty flag and the
  reentrancy guard.
-/

/-- An EnTT entity identifier: index plus generation counter. -/
structure EntityId where
  index : Nat
  gen : Nat
deriving Repr, DecidableEq

/-- Association-list lookup (models sparse-set `try_get` / `contains`:
EnTT compares the full packed id, exactly like keying on `EntityId`). -/
def alookup {κ α : Type} [DecidableEq κ] : List (κ × α) → κ → Option α
  | [], _ => none
  | p :: l, k => if p.1 = k then some p.2 else alookup l k

/-- Association-list update: replace in place if the key is present,
append otherwise (models `emplace_or_replace`). -/
def aset {κ α : Type} [DecidableEq κ] : List (κ × α) → κ → α → List (κ × α)
  | [], k, v => [(k, v)]
  | p :: l, k, v => if p.1 = k then (k, v) :: l else p :: aset l k v

/-- Association-list removal (models `remove`). -/
def aremove {κ α : Type} [DecidableEq κ] : List (κ × α) → κ → List (κ × α)
  | [], _ => []
  | p :: l, k => if p.1 = k then l else p :: aremove l k

/-- Keys of an association list. -/
def akeys {κ α : Type} (l : List (κ × α)) : List κ := l.map Prod.fst

/-- Insert into a list sorted by a Nat key, keeping the ascending order. -/
def insOn {α : Type} (key : α → Nat) (a : α) : List α → List α
  | [] => [a]
  | x :: xs => if key a ≤ key x then a :: x :: xs else x :: insOn key a xs

/-- Insertion sort by a Nat key, ascending (models the
`ea::sort(..., EntityIndexComparator{})` calls in the serializers). -/
def sortOn {α : Type} (key : α → Nat) (l : List α) : List α :=
  l.foldr (insOn key) []

/-- The registry: live entities, the fresh-index counter, the
`EntityMaterialized` tag storage (weak handle reference stored as the
handle id), the `MaterializationStatus` storage, and the user component
storages keyed by type name (payloads abstracted as `Nat`). -/
structure Reg where
  entities : List EntityId
  nextIndex : Nat
  tag : List (EntityId × Nat)
  status : List (EntityId × Bool)
  comps : List (String × List (EntityId × Nat))
deriving Repr, DecidableEq

/-- Registry validity check: `registry.valid(entity)`. -/
def Reg.validIn (r : Reg) (e : EntityId) : Prop := e ∈ r.entities

instance (r : Reg) (e : EntityId) : Decidable (r.validIn e) :=
  inferInstanceAs (Decidable (e ∈ r.entities))

/-- Indices currently in use. -/
def Reg.liveIndices (r : Reg) : List Nat := r.entities.map EntityId.index

/-- The empty registry contents produced by `registry_.clear()` (the
fresh counter is irrelevant to the claims; the clear keeps it). -/
def Reg.clearAll (r : Reg) : Reg :=
  { entities := [], nextIndex := r.nextIndex, tag := [], status := [], comps := [] }

/-- EnTT `create(hint)`: a null hint (or a hint whose index is in use)
yields a brand-new identifier; otherwise the hint is honoured exactly,
generation included. -/
def Reg.createWithHint (r : Reg) (hint : Option EntityId) : EntityId × Reg :=
  match hint with
  | some h =>
    if h.index ∈ r.liveIndices then
      (⟨r.nextIndex, 0⟩,
        { r with entities := r.entities ++ [⟨r.nextIndex, 0⟩], nextIndex := r.nextIndex + 1 })
    else
      (h, { r with entities := r.entities ++ [h], nextIndex := max r.nextIndex (h.index + 1) })
  | none =>
    (⟨r.nextIndex, 0⟩,
      { r with entities := r.entities ++ [⟨r.nextIndex, 0⟩], nextIndex := r.nextIndex + 1 })

/-- Storage of a user component type, empty when never touched. -/
def Reg.storageOf (r : Reg) (name : String) : List (EntityId × Nat) :=
  (alookup r.comps name).getD []

/-- Factory `HasComponent`: `registry.storage<T>().contains(entity)`. -/
def Reg.hasComp (r : Reg) (name : String) (e : EntityId) : Bool :=
  (alookup (r.storageOf name) e).isSome

/-- Factory `CreateComponent`: `registry.emplace<T>(entity)` with a
default-constructed payload; asserts validity and absence. -/
def Reg.emplaceComp (r : Reg) (name : String) (e : EntityId) : Option Reg :=
  if r.validIn e ∧ r.hasComp name e = false then
    some { r with comps := aset r.comps name (r.storageOf name ++ [(e, 0)]) }
  else none

/-- Registry `emplace_or_replace<T>(entity, value)`; asserts validity. -/
def Reg.emplaceOrReplaceComp (r : Reg) (name : String) (e : EntityId) (v : Nat) : Option Reg :=
  if r.validIn e then
    some { r with comps := aset r.comps name (aset (r.storageOf name) e v) }
  else none

/-- Component payload read: `registry.get<T>(entity)` (callers establish
containment before reading). -/
def Reg.getComp (r : Reg) (name : String) (e : EntityId) : Nat :=
  (alookup (r.storageOf name) e).getD 0

/-- In-place payload write after `get`, as done by
`SerializeComponent` on input (`SerializeInBlock` fills the fields). -/
def Reg.setComp (r : Reg) (name : String) (e : EntityId) (v : Nat) : Reg :=
  { r with comps := aset r.comps name (aset (r.storageOf name) e v) }

/-- Factory `DestroyComponent`: `registry.remove<T>(entity)`; asserts
validity. -/
def Reg.removeComp (r : Reg) (name : String) (e : EntityId) : Option Reg :=
  if r.validIn e then
    some { r with comps := aset r.comps name (aremove (r.storageOf name) e) }
  else none

/-- Registry `replace<T>(entity, value)` as used by the factory commit;
asserts validity and containment. -/
def Reg.replaceComp (r : Reg) (name : String) (e : EntityId) (v : Nat) : Option Reg :=
  if r.validIn e ∧ r.hasComp name e = true then
    some { r with comps := aset r.comps name (aset (r.storageOf name) e v) }
  else none

/-- Registry `emplace<EntityMaterialized>(entity, ref)`; asserts
validity and absence of the tag. -/
def Reg.emplaceTag (r : Reg) (e : EntityId) (hid : Nat) : Option Reg :=
  if r.validIn e ∧ alookup r.tag e = none then
    some { r with tag := r.tag ++ [(e, hid)] }
  else none

/-- Registry `emplace_or_replace<EntityMaterialized>(entity, ref)`;
asserts validity. -/
def Reg.emplaceOrReplaceTag (r : Reg) (e : EntityId) (hid : Nat) : Option Reg :=
  if r.validIn e then some { r with tag := aset r.tag e hid } else none

/-- Registry `remove<EntityMaterialized>(entity)`; asserts validity. -/
def Reg.removeTag (r : Reg) (e : EntityId) : Option Reg :=
  if r.validIn e then some { r with tag := aremove r.tag e } else none

/-- Registry `emplace_or_replace<MaterializationStatus>(entity, b)`;
asserts validity. -/
def Reg.emplaceOrReplaceStatus (r : Reg) (e : EntityId) (b : Bool) : Option Reg :=
  if r.validIn e then some { r with status := aset r.status e b } else none

/-- One registered component factory: name, serialization version, and
its staged pending edit actions (`DefaultEntityComponentFactory`). -/
structure Factory where
  name : String
  version : Nat
  pendingEdits : List (EntityId × Nat)
deriving Repr, DecidableEq

/-- One block of the standalone (per-entity) encoding: type name,
existence flag, factory version, and the payload (present on the wire
exactly when the existence flag is written true). -/
structure EBlock where
  typeName : String
  shouldExist : Bool
  version : Nat
  payload : Option Nat
deriving Repr, DecidableEq

/-- A scene-side handle object (`EntityReference`): identity of the
object plus the claimed entity id (`none` models `entt::null`). -/
structure Handle where
  hid : Nat
  ent : Option EntityId
deriving Repr, DecidableEq

/-- The manager state: registry, factories, alive handles, pending
queues, dirty flag, reentrancy guard and counters. -/
structure MState where
  reg : Reg
  factories : List Factory
  handles : List Handle
  nextHid : Nat
  pendingAdds : List Nat
  pendingDecodes : List (Nat × List EBlock)
  registryDirty : Bool
  syncInProgress : Bool
  pendingMats : List (EntityId × Bool)
  pendingCreates : List (EntityId × String)
  pendingDestroys : List (EntityId × String)
  pendingEditNames : List String
deriving Repr, DecidableEq

/-- Dereference a weak handle reference: the handle object if alive. -/
def handleOf (s : MState) (hid : Nat) : Option Handle :=
  s.handles.find? (fun h => h.hid = hid)

/-- The code's `EntityToReference`: null entity gives null; otherwise
`try_get<EntityMaterialized>` and dereference the stored weak pointer
(null when the handle has died). -/
def entityToReference (s : MState) (oe : Option EntityId) : Option Nat :=
  match oe with
  | none => none
  | some e =>
    match alookup s.reg.tag e with
    | some hid => if (handleOf s hid).isSome then some hid else none
    | none => none

/-- The code's `IsEntityMaterialized` (its `URHO3D_ASSERT(valid)` is a
side condition carried by the theorems): `any_of<EntityMaterialized>`. -/
def isEntityMaterialized (s : MState) (e : EntityId) : Bool :=
  (alookup s.reg.tag e).isSome

/-- The code's `FindComponentType`: linear scan by name. -/
def findFactory (facs : List Factory) (name : String) : Option Factory :=
  facs.find? (fun f => f.name == name)

/-- Ordered insert for `EnsureComponentTypesSorted`. -/
def insFactory (f : Factory) : List Factory → List Factory
  | [] => [f]
  | x :: xs => if x.name < f.name then x :: insFactory f xs else f :: x :: xs

/-- The code's `EnsureComponentTypesSorted`: factories sorted by name. -/
def sortFactories (facs : List Factory) : List Factory :=
  facs.foldr insFactory []

/-- The code's `MaterializeEntity`.  If a live handle already backs the
entity, warn and return it.  Otherwise create a scene node under the
container, create a handle bound to the entity (fresh object identity
`nextHid`), tag the entity (`emplace_or_replace`, which asserts registry
validity), set `MaterializationStatus = true`, attach the handle with
component events suppressed and emit `OnEntityMaterialized` (the signal
and the node have no registry effect). -/
def materializeEntity (s : MState) (e : EntityId) : Option (MState × Nat) :=
  match entityToReference s (some e) with
  | some hid => some (s, hid)
  | none => do
    let hid := s.nextHid
    let r ← s.reg.emplaceOrReplaceTag e hid
    let r ← r.emplaceOrReplaceStatus e true
    let h2 : Handle := { hid := hid, ent := some e }
    pure ({ s with
              reg := r
              handles := s.handles ++ [h2]
              nextHid := s.nextHid + 1 }, hid)

/-- The code's `DematerializeEntity`.  `IsEntityMaterialized` asserts
registry validity; absence of the tag is a warned no-op.  Otherwise the
stored weak handle reference is dereferenced (asserted non-null), the
dematerialized signal is emitted, the hierarchy is flattened (scene
side), the handle's binding is cleared and its node removed with events
suppressed (destroying the handle), the tag is removed and
`MaterializationStatus` set to false. -/
def dematerializeEntity (s : MState) (e : EntityId) : Option MState :=
  if s.reg.validIn e then
    match alookup s.reg.tag e with
    | none => some s
    | some hid => do
      let _ ← handleOf s hid
      let s1 := { s with handles := s.handles.filter (fun h2 => h2.hid != hid) }
      let r ← s1.reg.removeTag e
      let r ← r.emplaceOrReplaceStatus e false
      pure { s1 with reg := r }
  else none

/-- One entry of the pending-materializations queue in `CommitActions`:
the code applies `MaterializeEntity` / `DematerializeEntity` directly,
with no validity check on the stored entity. -/
def applyToggle (s : MState) (p : EntityId × Bool) : Option MState :=
  if p.2 then (materializeEntity s p.1).map Prod.fst
  else dematerializeEntity s p.1

/-- One entry of the pending-create-components queue: skipped with an
error log when the entity is invalid or the component already exists. -/
def applyCreate (s : MState) (p : EntityId × String) : Option MState :=
  if ¬ s.reg.validIn p.1 ∨ s.reg.hasComp p.2 p.1 then some s
  else (s.reg.emplaceComp p.2 p.1).map (fun r => { s with reg := r })

/-- One entry of the pending-destroy-components queue: skipped with an
error log when the entity is invalid or the component is absent. -/
def applyDestroy (s : MState) (p : EntityId × String) : Option MState :=
  if ¬ s.reg.validIn p.1 ∨ ¬ s.reg.hasComp p.2 p.1 then some s
  else (s.reg.removeComp p.2 p.1).map (fun r => { s with reg := r })

/-- The factory's `CommitActions`: each staged edit referencing an
invalid entity is logged and skipped; a surviving edit is applied with
`registry.replace` (which asserts containment).  The factory's staged
list is cleared. -/
def commitFactoryEdits (s : MState) (name : String) : Option MState :=
  match findFactory s.factories name with
  | none => some s
  | some f => do
    let r ← f.pendingEdits.foldlM (fun r p =>
        if ¬ r.validIn p.1 then some r
        else r.replaceComp name p.1 p.2) s.reg
    let facs2 := s.factories.map (fun g =>
      if g.name == name then { g with pendingEdits := [] } else g)
    pure { s with reg := r, factories := facs2 }

/-- The manager's `CommitActions`: drain the four UI queues in order
(materialization toggles, component creates, component destroys, staged
factory edits), clearing each after its loop. -/
def commitActions (s : MState) : Option MState := do
  let s1 ← s.pendingMats.foldlM applyToggle s
  let s1 := { s1 with pendingMats := [] }
  let s2 ← s1.pendingCreates.foldlM applyCreate s1
  let s2 := { s2 with pendingCreates := [] }
  let s3 ← s2.pendingDestroys.foldlM applyDestroy s2
  let s3 := { s3 with pendingDestroys := [] }
  let s4 ← s3.pendingEditNames.foldlM commitFactoryEdits s3
  pure { s4 with pendingEditNames := [] }

/-- The output direction of `SerializeStandaloneEntity` wrapped by
`EncodeEntity`: an invalid entity is logged and yields the empty buffer;
otherwise one block per registered factory in sorted order, carrying
type name, existence flag, version, and the payload when existing. -/
def encodeEntityR (facs : List Factory) (r : Reg) (e : EntityId) : List EBlock :=
  if r.validIn e then
    (sortFactories facs).map (fun f =>
      { typeName := f.name, shouldExist := r.hasComp f.name e, version := f.version,
        payload := if r.hasComp f.name e then some (r.getComp f.name e) else none })
  else []

/-- One block of the input direction of `SerializeStandaloneEntity`:
an unknown type name is skipped; a true existence flag creates the
component if absent and deserializes the payload; a false flag destroys
the component if present. -/
def decodeBlockR (facs : List Factory) (e : EntityId) (r : Reg) (b : EBlock) : Option Reg :=
  match findFactory facs b.typeName with
  | none => some r
  | some _ =>
    if b.shouldExist then do
      let r1 ← if r.hasComp b.typeName e then some r else r.emplaceComp b.typeName e
      pure (r1.setComp b.typeName e (b.payload.getD 0))
    else
      if r.hasComp b.typeName e then r.removeComp b.typeName e else some r

/-- The input direction of `SerializeStandaloneEntity` wrapped by
`DecodeEntity`: an invalid entity is logged and nothing is read. -/
def decodeEntityR (facs : List Factory) (r : Reg) (e : EntityId) (bs : List EBlock) :
    Option Reg :=
  if r.validIn e then bs.foldlM (decodeBlockR facs e) r else some r

/-- The registry snapshot stream produced by `SerializeRegistry` on
output: the entities array, the `MaterializationStatus` storage, and one
block per registered factory (type name, version, items). -/
structure Snapshot where
  entities : List EntityId
  statusArr : List (EntityId × Bool)
  storages : List (String × Nat × List (EntityId × Nat))
deriving Repr, DecidableEq

/-- The output direction of `SerializeRegistry` (`GetDataAttr`): the
entities sorted by index; each per-type storage sorted by index; user
storages in sorted factory order. -/
def encodeRegistry (s : MState) : Snapshot :=
  { entities := sortOn EntityId.index s.reg.entities
  , statusArr := sortOn (fun p => p.1.index) s.reg.status
  , storages := (sortFactories s.factories).map (fun f =>
      (f.name, f.version, sortOn (fun p => p.1.index) (s.reg.storageOf f.name))) }

/-- The input direction of `SerializeRegistry`: capture the
`EntityMaterialized` data (weak handle references) aside, clear the
registry, re-create every encoded entity with its literal id as the
creation hint, decode the `MaterializationStatus` storage and every
user storage whose type name has a registered factory (unknown names
are skipped), then re-attach each captured handle reference to its
claimed entity id when that id validates in the reloaded registry. -/
def decodeRegistryM (s : MState) (snap : Snapshot) : Option MState := do
  let captured := s.reg.tag.map Prod.snd
  let r0 := s.reg.clearAll
  let r1 := snap.entities.foldl (fun r e => (r.createWithHint (some e)).2) r0
  let r2 ← snap.statusArr.foldlM (fun r p => r.emplaceOrReplaceStatus p.1 p.2) r1
  let r3 ← snap.storages.foldlM (fun r blk =>
      match findFactory s.factories blk.1 with
      | none => some r
      | some _ => blk.2.2.foldlM (fun r q => r.emplaceOrReplaceComp blk.1 q.1 q.2) r) r2
  let r4 ← captured.foldlM (fun r hid =>
      match handleOf s hid with
      | none => none
      | some h =>
        match h.ent with
        | some e => if r.validIn e then r.emplaceTag e hid else some r
        | none => some r) r3
  pure { s with reg := r4 }

/-- The manager's `SetDataAttr`: decode the snapshot and raise the
registry-dirty flag so the next `Synchronize` runs the sweep. -/
def setDataAttr (s : MState) (snap : Snapshot) : Option MState :=
  (decodeRegistryM s snap).map (fun s2 => { s2 with registryDirty := true })

/-- The handle's `SetEntityInternal`. -/
def setHandleEnt (s : MState) (hid : Nat) (oe : Option EntityId) : MState :=
  { s with handles := s.handles.map (fun h =>
      if h.hid == hid then { h with ent := oe } else h) }

/-- The creation arm shared by `Synchronize` step 1: create a new
entity using the handle's claimed id as the hint, bind the handle to the
returned id, tag it and set `MaterializationStatus = true`. -/
def bindNewEntity (s : MState) (hid : Nat) (hint : Option EntityId) : Option MState := do
  let (e2, r) := s.reg.createWithHint hint
  let s1 := setHandleEnt { s with reg := r } hid (some e2)
  let r2 ← s1.reg.emplaceTag e2 hid
  let r3 ← r2.emplaceOrReplaceStatus e2 true
  pure { s1 with reg := r3 }

/-- One pending newly-observed handle in `Synchronize` step 1: skip when
the claimed entity already resolves back to this very handle; adopt the
claimed entity when it is valid and `EntityToReference` gives null
(late attachment, no rebind); otherwise create a new entity from the
hint.  Adoption and creation both tag the entity and set
`MaterializationStatus = true`. -/
def processPending (s : MState) (hid : Nat) : Option MState := do
  let h ← handleOf s hid
  match h.ent with
  | some e =>
    if entityToReference s (some e) = some hid then pure s
    else if s.reg.validIn e ∧ entityToReference s (some e) = none then do
      let r ← s.reg.emplaceTag e hid
      let r2 ← r.emplaceOrReplaceStatus e true
      pure { s with reg := r2 }
    else bindNewEntity s hid (some e)
  | none => bindNewEntity s hid none

/-- One pending entity-scoped decode in `Synchronize` step 2: applied
only when the weak handle is alive and still claims a non-null id. -/
def applyPendingDecode (s : MState) (p : Nat × List EBlock) : Option MState :=
  match handleOf s p.1 with
  | none => some s
  | some h =>
    match h.ent with
    | none => some s
    | some e => (decodeEntityR s.factories s.reg e p.2).map (fun r => { s with reg := r })

/-- One entity of the `EnsureEntitiesMaterialized` sweep: materialize
when the tag is absent but the persisted status says materialized,
dematerialize when the tag is present but the status is absent or
false. -/
def sweepOne (s : MState) (e : EntityId) : Option MState :=
  let tagData := alookup s.reg.tag e
  let st := alookup s.reg.status e
  if tagData = none ∧ st = some true then (materializeEntity s e).map Prod.fst
  else if tagData ≠ none ∧ (st = none ∨ st = some false) then dematerializeEntity s e
  else some s

/-- The code's `EnsureEntitiesMaterialized`: sweep every live entity. -/
def ensureEntitiesMaterialized (s : MState) : Option MState :=
  s.reg.entities.foldlM sweepOne s

/-- Step 3 of `Synchronize`: when the registry-dirty flag is set, clear
it first and run the materialization sweep. -/
def syncStep3 (s : MState) : Option MState :=
  if s.registryDirty then ensureEntitiesMaterialized { s with registryDirty := false }
  else pure s

/-- The code's `Synchronize`: silent no-op under the reentrancy guard;
otherwise set the guard, drain the pending-additions queue, drain the
pending-decodes queue, run the materialization sweep when the registry
is dirty (clearing the flag first), and drop the guard. -/
def synchronize (s : MState) : Option MState :=
  if s.syncInProgress then some s
  else do
    let s0 := { s with syncInProgress := true }
    let s1 ← s0.pendingAdds.foldlM processPending s0
    let s1 := { s1 with pendingAdds := [] }
    let s2 ← s1.pendingDecodes.foldlM applyPendingDecode s1
    let s2 := { s2 with pendingDecodes := [] }
    let s3 ← syncStep3 s2
    pure { s3 with syncInProgress := false }

/-- Scenario helper (from the spec's round-trip test, not a source
function): destroy, through the registered factories, every component
the entity currently has. -/
def destroyAllComps (facs : List Factory) (r : Reg) (e : EntityId) : Option Reg :=
  facs.foldlM (fun r2 f =>
    if r2.hasComp f.name e then r2.removeComp f.name e else some r2) r

/-- Scene-tree model for `FlattenEntityHierarchy`: nodes are numbers,
`parent` maps a child node to its parent node, `refNodes` lists the
nodes carrying an `EntityReference` component. -/
structure SceneTree where
  parent : List (Nat × Nat)
  refNodes : List Nat
deriving Repr, DecidableEq

/-- Direct children of a node under a parent map. -/
def childrenNodes (par : List (Nat × Nat)) (n : Nat) : List Nat :=
  (par.filter (fun p => p.2 == n)).map Prod.fst

/-- Fuel-bounded breadth-first collection of strict descendants. -/
def descendantsAux (par : List (Nat × Nat)) : Nat → List Nat → List Nat
  | 0, _ => []
  | _ + 1, [] => []
  | fuel + 1, n :: front =>
    let cs := childrenNodes par n
    cs ++ descendantsAux par fuel (front ++ cs)

/-- All strict descendants of a node (the fuel covers every edge). -/
def descendants (par : List (Nat × Nat)) (n : Nat) : List Nat :=
  descendantsAux par (par.length + 1) [n]

/-- The code's `FlattenEntityHierarchy`: look up the node's parent, then
`FindComponents<EntityReference>` collects the handles in the node's
subtree recursively (the source's `TODO: Ignore indirect children`
comment records that indirect descendants are currently included), and
every collected handle's node is reparented to the removed node's
parent. -/
def flattenEntityHierarchy (sc : SceneTree) (n : Nat) : SceneTree :=
  match alookup sc.parent n with
  | none => sc
  | some p =>
    let targets := (descendants sc.parent n).filter (fun d => sc.refNodes.contains d)
    { sc with parent := targets.foldl (fun par d => aset par d p) sc.parent }


/-! Association-list lemmas. -/

theorem alookup_append_left {κ α : Type} [DecidableEq κ] (l1 l2 : List (κ × α)) (k : κ)
    (h : alookup l1 k = none) : alookup (l1 ++ l2) k = alookup l2 k := by
  induction l1 with
  | nil => rfl
  | cons p l ih =>
    by_cases hp : p.1 = k
    · simp [alookup, hp] at h
    · simp only [alookup, if_neg hp, List.cons_append] at h ⊢
      exact ih h

theorem alookup_eq_none_iff {κ α : Type} [DecidableEq κ] (l : List (κ × α)) (k : κ) :
    alookup l k = none ↔ k ∉ akeys l := by
  induction l with
  | nil => simp [alookup, akeys]
  | cons p l ih =>
    by_cases hp : p.1 = k
    · simp [alookup, hp, akeys]
    · simp only [alookup, if_neg hp, akeys, List.map_cons, List.mem_cons, ih]
      constructor
      · rintro h (h1 | h2)
        · exact hp h1.symm
        · exact h h2
      · intro h hk
        exact h (Or.inr hk)

theorem alookup_mem {κ α : Type} [DecidableEq κ] {l : List (κ × α)} {k : κ} {v : α}
    (h : alookup l k = some v) : (k, v) ∈ l := by
  induction l with
  | nil => simp [alookup] at h
  | cons p l ih =>
    obtain ⟨pa, pb⟩ := p
    by_cases hp : pa = k
    · simp only [alookup, if_pos hp] at h
      have hv : pb = v := Option.some.inj h
      exact List.mem_cons.mpr (Or.inl (by rw [hp, hv]))
    · simp only [alookup, if_neg hp] at h
      exact List.mem_cons_of_mem _ (ih h)

theorem mem_alookup_of_nodup {κ α : Type} [DecidableEq κ] {l : List (κ × α)} {k : κ} {v : α}
    (hn : (akeys l).Nodup) (h : (k, v) ∈ l) : alookup l k = some v := by
  induction l with
  | nil => cases h
  | cons p l ih =>
    simp only [akeys, List.map_cons, List.nodup_cons] at hn
    rcases List.mem_cons.mp h with h1 | h2
    · rw [← h1]
      simp [alookup]
    · have hp : p.1 ≠ k := by
        intro hk
        exact hn.1 (hk ▸ (List.mem_map.mpr ⟨(k, v), h2, rfl⟩))
      simp only [alookup, if_neg hp]
      exact ih hn.2 h2

theorem alookup_aset_self {κ α : Type} [DecidableEq κ] (l : List (κ × α)) (k : κ) (v : α) :
    alookup (aset l k v) k = some v := by
  induction l with
  | nil => simp [aset, alookup]
  | cons p l ih =>
    by_cases hp : p.1 = k
    · simp [aset, hp, alookup]
    · simp [aset, hp, alookup, ih]

theorem alookup_aset_ne {κ α : Type} [DecidableEq κ] (l : List (κ × α)) (k k' : κ) (v : α)
    (h : k' ≠ k) : alookup (aset l k v) k' = alookup l k' := by
  have hkk : ¬ k = k' := fun hh => h hh.symm
  induction l with
  | nil => simp only [aset, alookup, if_neg hkk]
  | cons p l ih =>
    by_cases hp : p.1 = k
    · have hp' : ¬ p.1 = k' := by rw [hp]; exact hkk
      simp only [aset, if_pos hp, alookup, if_neg hp', if_neg hkk]
    · simp only [aset, if_neg hp, alookup]
      by_cases hq : p.1 = k'
      · simp [hq]
      · simp [hq, ih]

theorem aset_absent {κ α : Type} [DecidableEq κ] (l : List (κ × α)) (k : κ) (v : α)
    (h : alookup l k = none) : aset l k v = l ++ [(k, v)] := by
  induction l with
  | nil => rfl
  | cons p l ih =>
    by_cases hp : p.1 = k
    · simp [alookup, hp] at h
    · simp only [alookup, if_neg hp] at h
      simp [aset, hp, ih h]

theorem mem_aset {κ α : Type} [DecidableEq κ] {l : List (κ × α)} {k : κ} {v : α}
    {p : κ × α} (h : p ∈ aset l k v) : p = (k, v) ∨ p ∈ l := by
  induction l with
  | nil =>
    simp only [aset, List.mem_singleton] at h
    exact Or.inl h
  | cons q l ih =>
    by_cases hq : q.1 = k
    · simp only [aset, if_pos hq, List.mem_cons] at h
      rcases h with h1 | h2
      · exact Or.inl h1
      · exact Or.inr (List.mem_cons_of_mem _ h2)
    · simp only [aset, if_neg hq, List.mem_cons] at h
      rcases h with h1 | h2
      · exact Or.inr (h1 ▸ List.mem_cons_self _ _)
      · rcases ih h2 with h3 | h4
        · exact Or.inl h3
        · exact Or.inr (List.mem_cons_of_mem _ h4)

theorem akeys_aset {κ α : Type} [DecidableEq κ] (l : List (κ × α)) (k : κ) (v : α) :
    akeys (aset l k v) = if k ∈ akeys l then akeys l else akeys l ++ [k] := by
  induction l with
  | nil => simp [aset, akeys]
  | cons p l ih =>
    by_cases hp : p.1 = k
    · simp [aset, hp, akeys]
    · have hne : ¬ k = p.1 := fun hh => hp hh.symm
      simp only [aset, if_neg hp, akeys, List.map_cons, List.mem_cons, hne, false_or]
      by_cases hm : k ∈ akeys l
      · simp only [akeys] at hm ih
        simp [hm, ih]
      · simp only [akeys] at hm ih
        simp [hm, ih]

theorem akeys_aset_nodup {κ α : Type} [DecidableEq κ] (l : List (κ × α)) (k : κ) (v : α)
    (hn : (akeys l).Nodup) : (akeys (aset l k v)).Nodup := by
  rw [akeys_aset]
  by_cases hm : k ∈ akeys l
  · simpa [hm]
  · simp only [hm, if_false]
    simpa [List.nodup_append] using ⟨hn, hm⟩

theorem mem_aremove {κ α : Type} [DecidableEq κ] {l : List (κ × α)} {k : κ} {p : κ × α}
    (h : p ∈ aremove l k) : p ∈ l := by
  induction l with
  | nil => cases h
  | cons q l ih =>
    by_cases hq : q.1 = k
    · simp only [aremove, if_pos hq] at h
      exact List.mem_cons_of_mem _ h
    · simp only [aremove, if_neg hq, List.mem_cons] at h
      rcases h with h1 | h2
      · exact h1 ▸ List.mem_cons_self _ _
      · exact List.mem_cons_of_mem _ (ih h2)

theorem aremove_absent {κ α : Type} [DecidableEq κ] (l : List (κ × α)) (k : κ)
    (h : alookup l k = none) : aremove l k = l := by
  induction l with
  | nil => rfl
  | cons p l ih =>
    by_cases hp : p.1 = k
    · simp [alookup, hp] at h
    · simp only [alookup, if_neg hp] at h
      simp [aremove, hp, ih h]

theorem alookup_aremove_ne {κ α : Type} [DecidableEq κ] (l : List (κ × α)) (k k' : κ)
    (hn : (akeys l).Nodup) (h : k' ≠ k) :
    alookup (aremove l k) k' = alookup l k' := by
  induction l with
  | nil => rfl
  | cons p l ih =>
    simp only [akeys, List.map_cons, List.nodup_cons] at hn
    by_cases hp : p.1 = k
    · have hp' : ¬ p.1 = k' := by rw [hp]; exact fun hh => h hh.symm
      simp only [aremove, if_pos hp, alookup, if_neg hp']
    · simp only [aremove, if_neg hp, alookup]
      by_cases hq : p.1 = k'
      · simp [hq]
      · simp [hq, ih hn.2]

theorem alookup_aremove_self {κ α : Type} [DecidableEq κ] (l : List (κ × α)) (k : κ)
    (hn : (akeys l).Nodup) : alookup (aremove l k) k = none := by
  induction l with
  | nil => rfl
  | cons p l ih =>
    simp only [akeys, List.map_cons, List.nodup_cons] at hn
    by_cases hp : p.1 = k
    · rw [aremove, if_pos hp, alookup_eq_none_iff]
      intro hk
      exact hn.1 (hp ▸ hk)
    · simp only [aremove, if_neg hp, alookup, if_neg hp]
      exact ih hn.2

theorem akeys_aremove_sublist {κ α : Type} [DecidableEq κ] (l : List (κ × α)) (k : κ) :
    (akeys (aremove l k)).Sublist (akeys l) := by
  induction l with
  | nil => simp [aremove, akeys]
  | cons p l ih =>
    by_cases hp : p.1 = k
    · simp only [aremove, if_pos hp, akeys, List.map_cons]
      exact (List.sublist_cons_self _ _)
    · simp only [aremove, if_neg hp, akeys, List.map_cons]
      exact ih.cons₂ _

theorem akeys_aremove_nodup {κ α : Type} [DecidableEq κ] (l : List (κ × α)) (k : κ)
    (hn : (akeys l).Nodup) : (akeys (aremove l k)).Nodup :=
  (akeys_aremove_sublist l k).nodup hn

/-! Sorting lemmas. -/

theorem insOn_perm {α : Type} (key : α → Nat) (a : α) (l : List α) :
    (insOn key a l).Perm (a :: l) := by
  induction l with
  | nil => exact List.Perm.refl _
  | cons x xs ih =>
    by_cases hx : key a ≤ key x
    · simp only [insOn, if_pos hx]
      exact List.Perm.refl _
    · simp only [insOn, if_neg hx]
      exact (ih.cons x).trans (List.Perm.swap a x xs)

theorem sortOn_perm {α : Type} (key : α → Nat) (l : List α) :
    (sortOn key l).Perm l := by
  induction l with
  | nil => exact List.Perm.refl _
  | cons x xs ih =>
    simp only [sortOn, List.foldr_cons]
    exact (insOn_perm key x _).trans (ih.cons x)

theorem insOn_sorted {α : Type} (key : α → Nat) (a : α) (l : List α)
    (h : l.Pairwise (fun x y => key x ≤ key y)) :
    (insOn key a l).Pairwise (fun x y => key x ≤ key y) := by
  induction l with
  | nil => simp [insOn]
  | cons x xs ih =>
    rcases List.pairwise_cons.mp h with ⟨hx, hxs⟩
    by_cases ha : key a ≤ key x
    · simp only [insOn, if_pos ha]
      refine List.pairwise_cons.mpr ⟨?_, h⟩
      intro y hy
      rcases List.mem_cons.mp hy with h1 | h2
      · exact h1 ▸ ha
      · exact le_trans ha (hx y h2)
    · simp only [insOn, if_neg ha]
      refine List.pairwise_cons.mpr ⟨?_, ih hxs⟩
      intro y hy
      rcases List.mem_cons.mp ((insOn_perm key a xs).mem_iff.mp hy) with h1 | h2
      · exact h1 ▸ le_of_not_le ha
      · exact hx y h2

theorem sortOn_sorted {α : Type} (key : α → Nat) (l : List α) :
    (sortOn key l).Pairwise (fun x y => key x ≤ key y) := by
  induction l with
  | nil => simp [sortOn]
  | cons x xs ih =>
    simp only [sortOn, List.foldr_cons]
    exact insOn_sorted key x _ ih

theorem pairwise_lt_of_le_nodup {α : Type} (key : α → Nat) (l : List α)
    (hs : l.Pairwise (fun x y => key x ≤ key y)) (hn : (l.map key).Nodup) :
    l.Pairwise (fun x y => key x < key y) := by
  induction l with
  | nil => simp
  | cons x xs ih =>
    rcases List.pairwise_cons.mp hs with ⟨hx, hxs⟩
    simp only [List.map_cons, List.nodup_cons] at hn
    refine List.pairwise_cons.mpr ⟨?_, ih hxs hn.2⟩
    intro y hy
    refine lt_of_le_of_ne (hx y hy) ?_
    intro he
    exact hn.1 (he ▸ List.mem_map.mpr ⟨y, hy, rfl⟩)

theorem insFactory_perm (f : Factory) (l : List Factory) :
    (insFactory f l).Perm (f :: l) := by
  induction l with
  | nil => exact List.Perm.refl _
  | cons x xs ih =>
    by_cases hx : x.name < f.name
    · simp only [insFactory, if_pos hx]
      exact (ih.cons x).trans (List.Perm.swap f x xs)
    · simp only [insFactory, if_neg hx]
      exact List.Perm.refl _

theorem sortFactories_perm (facs : List Factory) :
    (sortFactories facs).Perm facs := by
  induction facs with
  | nil => exact List.Perm.refl _
  | cons x xs ih =>
    simp only [sortFactories, List.foldr_cons]
    exact (insFactory_perm x _).trans (ih.cons x)

/-! Option-fold helpers. -/

theorem foldlM_skip_middle {α β : Type} (f : β → α → Option β) (l1 l2 : List α) (x : α) (b : β)
    (hx : ∀ b2, f b2 x = some b2) :
    List.foldlM f b (l1 ++ x :: l2) = List.foldlM f b (l1 ++ l2) := by
  rw [List.foldlM_append, List.foldlM_append]
  cases hfb : List.foldlM f b l1 with
  | none => rfl
  | some b2 => simp [List.foldlM_cons, hx]

/-! Sample states used by the concrete witnesses. -/

def emptyReg : Reg :=
  { entities := [], nextIndex := 0, tag := [], status := [], comps := [] }

def baseState : MState :=
  { reg := emptyReg, factories := [], handles := [], nextHid := 0, pendingAdds := [],
    pendingDecodes := [], registryDirty := false, syncInProgress := false, pendingMats := [],
    pendingCreates := [], pendingDestroys := [], pendingEditNames := [] }

def c6state : MState := { baseState with syncInProgress := true }

/-- C6: whenever a synchronization pass is already in progress
(`synchronizationInProgress_` is set), a nested call to `Synchronize`
returns immediately as a silent no-op, leaving the whole manager state
(registry and pending queues included) unchanged, so `Synchronize` never
runs nested within itself. -/
theorem c6_reentrancy_noop (s : MState) (h : s.syncInProgress = true) :
    synchronize s = some s := by
  unfold synchronize
  rw [if_pos h]

theorem c6_reentrancy_noop_witness :
    c6state.syncInProgress = true ∧ synchronize c6state = some c6state :=
  ⟨rfl, c6_reentrancy_noop c6state rfl⟩

/-- C10: `EncodeEntity` on an entity that is not valid in the registry
logs an error and returns the empty byte vector (the encoder never
mutates the registry), and `DecodeEntity` on an invalid entity logs an
error and returns without deserializing anything, leaving the registry
unchanged; neither path fails. -/
theorem c10_invalid_entity_serialization (facs : List Factory) (r : Reg) (e : EntityId)
    (d : List EBlock) (h : ¬ r.validIn e) :
    encodeEntityR facs r e = [] ∧ decodeEntityR facs r e d = some r := by
  unfold encodeEntityR decodeEntityR
  rw [if_neg h, if_neg h]
  exact ⟨rfl, rfl⟩

theorem c10_invalid_entity_serialization_witness :
    ¬ emptyReg.validIn ⟨0, 0⟩ ∧
      (encodeEntityR [] emptyReg ⟨0, 0⟩ = [] ∧
        decodeEntityR [] emptyReg ⟨0, 0⟩ [] = some emptyReg) :=
  ⟨by decide, c10_invalid_entity_serialization [] emptyReg ⟨0, 0⟩ [] (by decide)⟩

/-- C3: evaluation of `FlattenEntityHierarchy` on the scene
node 2 (child of node 1) with direct child node 3 and grandchild
node 4, all three carrying `EntityReference`.  The claim says only the
direct child (node 3) is reparented to node 1 while the grandchild
(node 4) stays under node 3; the code, as its own `TODO: Ignore
indirect children` comment records, collects the subtree recursively
and reparents the grandchild to node 1 as well. -/
theorem c3_flatten_moves_indirect_descendant :
    alookup ((flattenEntityHierarchy ⟨[(2, 1), (3, 2), (4, 3)], [2, 3, 4]⟩ 2).parent) 4
        = some 1 ∧
    alookup ((flattenEntityHierarchy ⟨[(2, 1), (3, 2), (4, 3)], [2, 3, 4]⟩ 2).parent) 3
        = some 1 := by
  decide

/-- C8: during decode, a block whose type name matches no registered
factory is skipped entirely — its elements are discarded without any
error and every block for a recognized type name is still decoded
normally (removing the unknown block from the stream gives the very
same result), both for the registry-wide path
(`SerializeRegistry` / `SerializeUserComponents`) and for the
per-entity path (`SerializeStandaloneEntity`). -/
theorem c8_unknown_type_skipped
    (s : MState) (ents : List EntityId) (stat : List (EntityId × Bool))
    (pre post : List (String × Nat × List (EntityId × Nat)))
    (nm : String) (ver : Nat) (items : List (EntityId × Nat))
    (hnm : findFactory s.factories nm = none)
    (facs : List Factory) (r : Reg) (e : EntityId)
    (bpre bpost : List EBlock) (b : EBlock)
    (hb : findFactory facs b.typeName = none) :
    decodeRegistryM s ⟨ents, stat, pre ++ (nm, ver, items) :: post⟩
      = decodeRegistryM s ⟨ents, stat, pre ++ post⟩ ∧
    decodeEntityR facs r e (bpre ++ b :: bpost) = decodeEntityR facs r e (bpre ++ bpost) := by
  constructor
  · have hs : ∀ r2 : Reg,
        List.foldlM (fun r3 (blk : String × Nat × List (EntityId × Nat)) =>
          match findFactory s.factories blk.1 with
          | none => some r3
          | some _ =>
            blk.2.2.foldlM (fun r4 (q : EntityId × Nat) =>
              r4.emplaceOrReplaceComp blk.1 q.1 q.2) r3) r2
          (pre ++ (nm, ver, items) :: post)
        = List.foldlM (fun r3 blk =>
          match findFactory s.factories blk.1 with
          | none => some r3
          | some _ =>
            blk.2.2.foldlM (fun r4 (q : EntityId × Nat) =>
              r4.emplaceOrReplaceComp blk.1 q.1 q.2) r3) r2 (pre ++ post) := by
      intro r2
      refine foldlM_skip_middle _ pre post (nm, ver, items) r2 ?_
      intro b2
      simp [hnm]
    unfold decodeRegistryM
    simp only [hs]
  · unfold decodeEntityR
    by_cases hv : r.validIn e
    · rw [if_pos hv, if_pos hv]
      refine foldlM_skip_middle _ bpre bpost b r ?_
      intro b2
      unfold decodeBlockR
      rw [hb]
    · rw [if_neg hv, if_neg hv]

def c8state : MState := { baseState with factories := [⟨"Health", 1, []⟩] }

def c8unknown : String × Nat × List (EntityId × Nat) :=
  ("LegacyThing", 0, [(⟨0, 0⟩, 7), (⟨1, 0⟩, 8), (⟨2, 0⟩, 9)])

def c8block : EBlock := { typeName := "LegacyThing", shouldExist := true, version := 0, payload := some 5 }

theorem c8_unknown_type_skipped_witness :
    findFactory c8state.factories "LegacyThing" = none ∧
    findFactory c8state.factories c8block.typeName = none ∧
    (decodeRegistryM c8state ⟨[], [], [] ++ c8unknown :: [("Health", 1, [])]⟩
        = decodeRegistryM c8state ⟨[], [], [] ++ [("Health", 1, [])]⟩ ∧
      decodeEntityR c8state.factories emptyReg ⟨0, 0⟩ ([] ++ c8block :: [])
        = decodeEntityR c8state.factories emptyReg ⟨0, 0⟩ ([] ++ [])) :=
  ⟨by decide, by decide,
    c8_unknown_type_skipped c8state [] [] [] [("Health", 1, [])] "LegacyThing" 0
      [(⟨0, 0⟩, 7), (⟨1, 0⟩, 8), (⟨2, 0⟩, 9)] (by decide)
      c8state.factories emptyReg ⟨0, 0⟩ [] [] c8block (by decide)⟩

/-! Shape lemmas: which fields each operation can touch. -/

theorem materializeEntity_shape (s : MState) (e : EntityId) (s2 : MState) (hid : Nat)
    (h : materializeEntity s e = some (s2, hid)) :
    ∃ r hs n, s2 = { s with reg := r, handles := hs, nextHid := n } := by
  unfold materializeEntity at h
  cases href : entityToReference s (some e) with
  | some hid0 =>
    rw [href] at h
    cases h
    exact ⟨s.reg, s.handles, s.nextHid, rfl⟩
  | none =>
    rw [href] at h
    simp only [Option.bind_eq_bind, Option.bind_eq_some] at h
    obtain ⟨r1, hr1, h⟩ := h
    obtain ⟨r2, hr2, h⟩ := h
    cases h
    exact ⟨r2, _, _, rfl⟩

theorem dematerializeEntity_shape (s : MState) (e : EntityId) (s2 : MState)
    (h : dematerializeEntity s e = some s2) :
    ∃ r hs n, s2 = { s with reg := r, handles := hs, nextHid := n } := by
  unfold dematerializeEntity at h
  by_cases hv : s.reg.validIn e
  · rw [if_pos hv] at h
    cases htag : alookup s.reg.tag e with
    | none =>
      rw [htag] at h
      cases h
      exact ⟨s.reg, s.handles, s.nextHid, rfl⟩
    | some hid =>
      rw [htag] at h
      simp only [Option.bind_eq_bind, Option.bind_eq_some] at h
      obtain ⟨h1, hh1, h⟩ := h
      obtain ⟨r1, hr1, h⟩ := h
      obtain ⟨r2, hr2, h⟩ := h
      cases h
      exact ⟨r2, _, _, rfl⟩
  · rw [if_neg hv] at h
    cases h

theorem applyToggle_shape (s : MState) (p : EntityId × Bool) (s2 : MState)
    (h : applyToggle s p = some s2) :
    ∃ r hs n, s2 = { s with reg := r, handles := hs, nextHid := n } := by
  unfold applyToggle at h
  by_cases hb : p.2 = true
  · rw [if_pos hb] at h
    cases hm : materializeEntity s p.1 with
    | none => rw [hm] at h; cases h
    | some q =>
      rw [hm] at h
      cases h
      exact materializeEntity_shape s p.1 q.1 q.2 (by rw [hm])
  · rw [if_neg hb] at h
    exact dematerializeEntity_shape s p.1 s2 h

theorem applyCreate_shape (s : MState) (p : EntityId × String) (s2 : MState)
    (h : applyCreate s p = some s2) : ∃ r, s2 = { s with reg := r } := by
  unfold applyCreate at h
  by_cases hc : ¬ s.reg.validIn p.1 ∨ s.reg.hasComp p.2 p.1 = true
  · rw [if_pos hc] at h
    cases h
    exact ⟨s.reg, rfl⟩
  · rw [if_neg hc] at h
    cases hm : s.reg.emplaceComp p.2 p.1 with
    | none => rw [hm] at h; cases h
    | some r =>
      rw [hm] at h
      cases h
      exact ⟨r, rfl⟩

theorem applyDestroy_shape (s : MState) (p : EntityId × String) (s2 : MState)
    (h : applyDestroy s p = some s2) : ∃ r, s2 = { s with reg := r } := by
  unfold applyDestroy at h
  by_cases hc : ¬ s.reg.validIn p.1 ∨ ¬ s.reg.hasComp p.2 p.1 = true
  · rw [if_pos hc] at h
    cases h
    exact ⟨s.reg, rfl⟩
  · rw [if_neg hc] at h
    cases hm : s.reg.removeComp p.2 p.1 with
    | none => rw [hm] at h; cases h
    | some r =>
      rw [hm] at h
      cases h
      exact ⟨r, rfl⟩

theorem commitFactoryEdits_shape (s : MState) (nm : String) (s2 : MState)
    (h : commitFactoryEdits s nm = some s2) :
    ∃ r fs, s2 = { s with reg := r, factories := fs } := by
  unfold commitFactoryEdits at h
  cases hf : findFactory s.factories nm with
  | none =>
    rw [hf] at h
    cases h
    exact ⟨s.reg, s.factories, rfl⟩
  | some f =>
    rw [hf] at h
    simp only [Option.bind_eq_bind, Option.bind_eq_some] at h
    obtain ⟨r1, hr1, h⟩ := h
    cases h
    exact ⟨r1, _, rfl⟩

theorem foldlM_proj_eq {α γ : Type} (f : MState → α → Option MState) (g : MState → γ)
    (hf : ∀ t a t2, f t a = some t2 → g t2 = g t) :
    ∀ (l : List α) (t t2 : MState), List.foldlM f t l = some t2 → g t2 = g t := by
  intro l
  induction l with
  | nil =>
    intro t t2 h
    cases h
    rfl
  | cons x xs ih =>
    intro t t2 h
    rw [List.foldlM_cons] at h
    simp only [Option.bind_eq_bind, Option.bind_eq_some] at h
    obtain ⟨t1, hx, hrest⟩ := h
    rw [ih t1 t2 hrest, hf t x t1 hx]

def c9cex : MState := { baseState with pendingMats := [(⟨0, 0⟩, true)] }

/-- C9, counterexample: in a state whose materialization-toggle queue
holds an entry for an entity that is not valid in the registry,
`CommitActions` does not skip the entry — the toggle calls
`MaterializeEntity` without any validity check and the registry
`emplace_or_replace` assertion fires (modelled as `none`), aborting the
batch, contrary to the claim that every invalid entry is logged and
skipped. -/
theorem c9_counterexample : commitActions c9cex = none := by decide

/-- C9, amended: `CommitActions` drains and clears all four queues; in
the create-, destroy- and staged-edit queues an entry referencing a
now-invalid entity (or a create for an already-present component, or a
destroy for an absent component) is logged and skipped while the rest
of the batch is still applied; materialization toggles, however, are
applied without a validity check, so the batch completes only when the
toggled entities are applicable. -/
theorem c9_amended (s s' : MState) (hc : commitActions s = some s') :
    s'.pendingMats = [] ∧ s'.pendingCreates = [] ∧ s'.pendingDestroys = [] ∧
    s'.pendingEditNames = [] ∧
    (∀ (t : MState) (p : EntityId × String),
      (¬ t.reg.validIn p.1 ∨ t.reg.hasComp p.2 p.1 = true) → applyCreate t p = some t) ∧
    (∀ (t : MState) (p : EntityId × String),
      (¬ t.reg.validIn p.1 ∨ t.reg.hasComp p.2 p.1 = false) → applyDestroy t p = some t) ∧
    (∀ (r : Reg) (nm : String) (p : EntityId × Nat), ¬ r.validIn p.1 →
      (if ¬ r.validIn p.1 then some r else r.replaceComp nm p.1 p.2) = some r) := by
  unfold commitActions at hc
  simp only [Option.bind_eq_bind, Option.bind_eq_some] at hc
  obtain ⟨s1, h1, hc⟩ := hc
  obtain ⟨s2, h2, hc⟩ := hc
  obtain ⟨s3, h3, hc⟩ := hc
  obtain ⟨s4, h4, hc⟩ := hc
  have hcre : ∀ (t : MState) (a : EntityId × String) t2, applyCreate t a = some t2 →
      (t2.pendingMats = t.pendingMats ∧ t2.pendingCreates = t.pendingCreates ∧
        t2.pendingDestroys = t.pendingDestroys ∧ t2.pendingEditNames = t.pendingEditNames) := by
    intro t a t2 h
    obtain ⟨r, rfl⟩ := applyCreate_shape t a t2 h
    exact ⟨rfl, rfl, rfl, rfl⟩
  have hdes : ∀ (t : MState) (a : EntityId × String) t2, applyDestroy t a = some t2 →
      (t2.pendingMats = t.pendingMats ∧ t2.pendingCreates = t.pendingCreates ∧
        t2.pendingDestroys = t.pendingDestroys ∧ t2.pendingEditNames = t.pendingEditNames) := by
    intro t a t2 h
    obtain ⟨r, rfl⟩ := applyDestroy_shape t a t2 h
    exact ⟨rfl, rfl, rfl, rfl⟩
  have hedi : ∀ (t : MState) (a : String) t2, commitFactoryEdits t a = some t2 →
      (t2.pendingMats = t.pendingMats ∧ t2.pendingCreates = t.pendingCreates ∧
        t2.pendingDestroys = t.pendingDestroys) := by
    intro t a t2 h
    obtain ⟨r, fs, rfl⟩ := commitFactoryEdits_shape t a t2 h
    exact ⟨rfl, rfl, rfl⟩
  have hM4 : s4.pendingMats = [] := by
    have e4 := foldlM_proj_eq commitFactoryEdits (fun t => t.pendingMats)
      (fun t a t2 h => (hedi t a t2 h).1) _ _ _ h4
    have e3 := foldlM_proj_eq applyDestroy (fun t => t.pendingMats)
      (fun t a t2 h => (hdes t a t2 h).1) _ _ _ h3
    have e2 := foldlM_proj_eq applyCreate (fun t => t.pendingMats)
      (fun t a t2 h => (hcre t a t2 h).1) _ _ _ h2
    exact e4.trans (e3.trans e2)
  have hC4 : s4.pendingCreates = [] := by
    have e4 := foldlM_proj_eq commitFactoryEdits (fun t => t.pendingCreates)
      (fun t a t2 h => (hedi t a t2 h).2.1) _ _ _ h4
    have e3 := foldlM_proj_eq applyDestroy (fun t => t.pendingCreates)
      (fun t a t2 h => (hdes t a t2 h).2.1) _ _ _ h3
    exact e4.trans e3
  have hD4 : s4.pendingDestroys = [] := by
    have e4 := foldlM_proj_eq commitFactoryEdits (fun t => t.pendingDestroys)
      (fun t a t2 h => (hedi t a t2 h).2.2) _ _ _ h4
    exact e4
  cases hc
  refine ⟨hM4, hC4, hD4, rfl, ?_, ?_, ?_⟩
  · intro t p hp
    unfold applyCreate
    rw [if_pos hp]
  · intro t p hp
    unfold applyDestroy
    rcases hp with hp | hp
    · rw [if_pos (Or.inl hp)]
    · rw [if_pos (Or.inr (by simp [hp]))]
  · intro r nm p hp
    rw [if_pos hp]

def c9wit : MState :=
  { baseState with
      reg := { entities := [⟨0, 0⟩], nextIndex := 1, tag := [], status := [], comps := [] }
      factories := [⟨"Health", 1, []⟩]
      pendingCreates := [(⟨5, 0⟩, "Health")]
      pendingDestroys := [(⟨0, 0⟩, "Health")]
      pendingEditNames := ["Health"] }

def c9res : MState :=
  { c9wit with pendingCreates := [], pendingDestroys := [], pendingEditNames := [] }

theorem c9_amended_witness :
    commitActions c9wit = some c9res ∧
    (c9res.pendingMats = [] ∧ c9res.pendingCreates = [] ∧ c9res.pendingDestroys = [] ∧
      c9res.pendingEditNames = [] ∧
      (∀ (t : MState) (p : EntityId × String),
        (¬ t.reg.validIn p.1 ∨ t.reg.hasComp p.2 p.1 = true) → applyCreate t p = some t) ∧
      (∀ (t : MState) (p : EntityId × String),
        (¬ t.reg.validIn p.1 ∨ t.reg.hasComp p.2 p.1 = false) → applyDestroy t p = some t) ∧
      (∀ (r : Reg) (nm : String) (p : EntityId × Nat), ¬ r.validIn p.1 →
        (if ¬ r.validIn p.1 then some r else r.replaceComp nm p.1 p.2) = some r)) :=
  ⟨by decide, c9_amended c9wit c9res (by decide)⟩

/-! More helpers for the materialization cycle. -/

theorem aset_aset_self {κ α : Type} [DecidableEq κ] (l : List (κ × α)) (k : κ) (v w : α) :
    aset (aset l k v) k w = aset l k w := by
  induction l with
  | nil => simp [aset]
  | cons p l ih =>
    by_cases hp : p.1 = k
    · simp [aset, hp]
    · simp [aset, hp, ih]

theorem aremove_append_absent {κ α : Type} [DecidableEq κ] (l : List (κ × α)) (k : κ) (v : α)
    (h : alookup l k = none) : aremove (l ++ [(k, v)]) k = l := by
  induction l with
  | nil => simp [aremove]
  | cons p l ih =>
    by_cases hp : p.1 = k
    · simp [alookup, hp] at h
    · simp only [alookup, if_neg hp] at h
      simp [aremove, hp, ih h]

theorem find?_append_none {α : Type} (l1 l2 : List α) (p : α → Bool)
    (h : l1.find? p = none) : (l1 ++ l2).find? p = l2.find? p := by
  induction l1 with
  | nil => rfl
  | cons x xs ih =>
    cases hx : p x with
    | true => simp [List.find?_cons, hx] at h
    | false =>
      simp only [List.find?_cons, hx] at h
      simp only [List.cons_append, List.find?_cons, hx]
      exact ih h

theorem emplaceOrReplaceTag_of_valid (r : Reg) (e : EntityId) (hid : Nat)
    (hv : r.validIn e) :
    r.emplaceOrReplaceTag e hid = some { r with tag := aset r.tag e hid } := by
  unfold Reg.emplaceOrReplaceTag
  rw [if_pos hv]

theorem emplaceOrReplaceStatus_of_valid (r : Reg) (e : EntityId) (b : Bool)
    (hv : r.validIn e) :
    r.emplaceOrReplaceStatus e b = some { r with status := aset r.status e b } := by
  unfold Reg.emplaceOrReplaceStatus
  rw [if_pos hv]

theorem removeTag_of_valid (r : Reg) (e : EntityId) (hv : r.validIn e) :
    r.removeTag e = some { r with tag := aremove r.tag e } := by
  unfold Reg.removeTag
  rw [if_pos hv]

theorem materializeEntity_of_bare (s : MState) (e : EntityId)
    (hv : s.reg.validIn e) (href : entityToReference s (some e) = none) :
    materializeEntity s e = some
      ({ s with
          reg := { s.reg with
                     tag := aset s.reg.tag e s.nextHid
                     status := aset s.reg.status e true }
          handles := s.handles ++ [⟨s.nextHid, some e⟩]
          nextHid := s.nextHid + 1 }, s.nextHid) := by
  unfold materializeEntity
  rw [href]
  dsimp only
  rw [emplaceOrReplaceTag_of_valid s.reg e s.nextHid hv]
  simp only [Option.bind_eq_bind, Option.some_bind]
  rw [emplaceOrReplaceStatus_of_valid { s.reg with tag := aset s.reg.tag e s.nextHid } e true hv]
  simp only [Option.some_bind]
  rfl

theorem dematerializeEntity_of_tagged (s : MState) (e : EntityId) (hid : Nat) (h : Handle)
    (hv : s.reg.validIn e) (ht : alookup s.reg.tag e = some hid)
    (hh : handleOf s hid = some h) :
    dematerializeEntity s e = some
      { s with
          handles := s.handles.filter (fun h2 => h2.hid != hid)
          reg := { s.reg with
                     tag := aremove s.reg.tag e
                     status := aset s.reg.status e false } } := by
  unfold dematerializeEntity
  rw [if_pos hv, ht]
  simp only [hh, Option.bind_eq_bind, Option.some_bind]
  rw [removeTag_of_valid s.reg e hv]
  simp only [Option.some_bind]
  rw [emplaceOrReplaceStatus_of_valid { s.reg with tag := aremove s.reg.tag e } e false hv]
  simp only [Option.some_bind]
  rfl

theorem entityToReference_of_no_tag (s : MState) (e : EntityId)
    (h : alookup s.reg.tag e = none) : entityToReference s (some e) = none := by
  unfold entityToReference
  dsimp only
  rw [h]

/-- C7: for a bare valid entity, the sequence `MaterializeEntity`;
`DematerializeEntity`; `MaterializeEntity` succeeds, the entity id
stays the same and valid throughout, `MaterializationStatus` is true at
the end, and the second materialization yields a fresh handle object
(distinct identity) bound to the same entity id. -/
theorem c7_materialize_cycle (s : MState) (e : EntityId)
    (hv : s.reg.validIn e)
    (hb : alookup s.reg.tag e = none)
    (hH : ∀ h ∈ s.handles, h.hid < s.nextHid) :
    ∃ s1 h1 s2 s3 h2,
      materializeEntity s e = some (s1, h1) ∧
      dematerializeEntity s1 e = some s2 ∧
      materializeEntity s2 e = some (s3, h2) ∧
      s1.reg.validIn e ∧ s2.reg.validIn e ∧ s3.reg.validIn e ∧
      alookup s3.reg.status e = some true ∧
      h2 ≠ h1 ∧
      (∃ h ∈ s3.handles, h.hid = h2 ∧ h.ent = some e) ∧
      alookup s3.reg.tag e = some h2 := by
  have href := entityToReference_of_no_tag s e hb
  have hm1 := materializeEntity_of_bare s e hv href
  let S1 : MState :=
    { s with
        reg := { s.reg with
                   tag := aset s.reg.tag e s.nextHid
                   status := aset s.reg.status e true }
        handles := s.handles ++ [(⟨s.nextHid, some e⟩ : Handle)]
        nextHid := s.nextHid + 1 }
  have hv1 : S1.reg.validIn e := hv
  have ht1 : alookup S1.reg.tag e = some s.nextHid := alookup_aset_self s.reg.tag e s.nextHid
  have hho : handleOf S1 s.nextHid = some ⟨s.nextHid, some e⟩ := by
    show (s.handles ++ [(⟨s.nextHid, some e⟩ : Handle)]).find? (fun h => h.hid = s.nextHid)
        = some ⟨s.nextHid, some e⟩
    rw [find?_append_none]
    · simp [List.find?_cons]
    · refine List.find?_eq_none.mpr ?_
      intro h hmem
      simp only [decide_eq_true_eq]
      exact Nat.ne_of_lt (hH h hmem)
  have hd := dematerializeEntity_of_tagged S1 e s.nextHid ⟨s.nextHid, some e⟩ hv1 ht1 hho
  let S2 : MState :=
    { S1 with
        handles := S1.handles.filter (fun h2 => h2.hid != s.nextHid)
        reg := { S1.reg with
                   tag := aremove S1.reg.tag e
                   status := aset S1.reg.status e false } }
  have hv2 : S2.reg.validIn e := hv
  have ht2 : alookup S2.reg.tag e = none := by
    show alookup (aremove (aset s.reg.tag e s.nextHid) e) e = none
    rw [aset_absent _ _ _ hb, aremove_append_absent _ _ _ hb, hb]
  have href2 := entityToReference_of_no_tag S2 e ht2
  have hm2 := materializeEntity_of_bare S2 e hv2 href2
  refine ⟨S1, s.nextHid, S2, _, S2.nextHid, hm1, hd, hm2, hv1, hv2, hv, ?_, ?_, ?_, ?_⟩
  · exact alookup_aset_self S2.reg.status e true
  · exact Nat.succ_ne_self s.nextHid
  · refine ⟨⟨S2.nextHid, some e⟩, ?_, rfl, rfl⟩
    exact List.mem_append_right _ (List.mem_singleton.mpr rfl)
  · exact alookup_aset_self S2.reg.tag e S2.nextHid

def c7state : MState :=
  { baseState with
      reg := { entities := [⟨7, 0⟩], nextIndex := 8, tag := [], status := [], comps := [] } }

theorem c7_materialize_cycle_witness :
    (c7state.reg.validIn ⟨7, 0⟩ ∧ alookup c7state.reg.tag ⟨7, 0⟩ = none ∧
      (∀ h ∈ c7state.handles, h.hid < c7state.nextHid)) ∧
    (∃ s1 h1 s2 s3 h2,
      materializeEntity c7state ⟨7, 0⟩ = some (s1, h1) ∧
      dematerializeEntity s1 ⟨7, 0⟩ = some s2 ∧
      materializeEntity s2 ⟨7, 0⟩ = some (s3, h2) ∧
      s1.reg.validIn ⟨7, 0⟩ ∧ s2.reg.validIn ⟨7, 0⟩ ∧ s3.reg.validIn ⟨7, 0⟩ ∧
      alookup s3.reg.status ⟨7, 0⟩ = some true ∧
      h2 ≠ h1 ∧
      (∃ h ∈ s3.handles, h.hid = h2 ∧ h.ent = some ⟨7, 0⟩) ∧
      alookup s3.reg.tag ⟨7, 0⟩ = some h2) :=
  ⟨⟨by decide, rfl, by decide⟩,
    c7_materialize_cycle c7state ⟨7, 0⟩ (by decide) rfl (by decide)⟩

theorem createWithHint_spec (r : Reg) (hint : Option EntityId) (e2 : EntityId) (r2 : Reg)
    (hc : r.createWithHint hint = (e2, r2))
    (hN : ∀ e ∈ r.entities, e.index < r.nextIndex) :
    r2.entities = r.entities ++ [e2] ∧
    e2 ∉ r.entities ∧
    r2.tag = r.tag ∧ r2.status = r.status ∧ r2.comps = r.comps ∧
    (∀ e ∈ r2.entities, e.index < r2.nextIndex) := by
  have hfresh : (⟨r.nextIndex, 0⟩ : EntityId) ∉ r.entities := by
    intro hmem
    exact lt_irrefl _ (hN _ hmem)
  cases hint with
  | none =>
    simp only [Reg.createWithHint] at hc
    injection hc with he hr
    subst he
    subst hr
    refine ⟨rfl, hfresh, rfl, rfl, rfl, ?_⟩
    intro e he
    rcases List.mem_append.mp he with he1 | he2
    · exact Nat.lt_succ_of_lt (hN e he1)
    · rw [List.mem_singleton.mp he2]
      exact Nat.lt_succ_self _
  | some h0 =>
    by_cases hin : h0.index ∈ r.liveIndices
    · simp only [Reg.createWithHint, if_pos hin] at hc
      injection hc with he hr
      subst he
      subst hr
      refine ⟨rfl, hfresh, rfl, rfl, rfl, ?_⟩
      intro e he
      rcases List.mem_append.mp he with he1 | he2
      · exact Nat.lt_succ_of_lt (hN e he1)
      · rw [List.mem_singleton.mp he2]
        exact Nat.lt_succ_self _
    · simp only [Reg.createWithHint, if_neg hin] at hc
      injection hc with he hr
      subst he
      subst hr
      have hh0 : h0 ∉ r.entities := by
        intro hmem
        exact hin (List.mem_map.mpr ⟨h0, hmem, rfl⟩)
      refine ⟨rfl, hh0, rfl, rfl, rfl, ?_⟩
      intro e he
      rcases List.mem_append.mp he with he1 | he2
      · exact lt_of_lt_of_le (hN e he1) (le_max_left _ _)
      · rw [List.mem_singleton.mp he2]
        exact lt_of_lt_of_le (Nat.lt_succ_self _) (le_max_right _ _)

theorem find?_hid_map_update (l : List Handle) (hid : Nat) (oe : Option EntityId) :
    (l.map (fun h => if h.hid == hid then { h with ent := oe } else h)).find?
        (fun h => h.hid = hid)
      = (l.find? (fun h => h.hid = hid)).map (fun h => { h with ent := oe }) := by
  induction l with
  | nil => rfl
  | cons x xs ih =>
    by_cases hx : x.hid = hid
    · have hb : (x.hid == hid) = true := by simp [hx]
      have hxid : (if x.hid == hid then ({ x with ent := oe } : Handle) else x)
          = { x with ent := oe } := by
        rw [hb]
        rfl
      rw [List.map_cons, hxid]
      rw [List.find?_cons_of_pos _ (by simp [hx]), List.find?_cons_of_pos _ (by simp [hx])]
      rfl
    · have hb : (x.hid == hid) = false := by simp [hx]
      have hxid : (if x.hid == hid then ({ x with ent := oe } : Handle) else x) = x := by
        rw [hb]
        rfl
      rw [List.map_cons, hxid]
      rw [List.find?_cons_of_neg _ (by simp [hx]), List.find?_cons_of_neg _ (by simp [hx])]
      exact ih

theorem map_hid_map_update (l : List Handle) (hid : Nat) (oe : Option EntityId) :
    (l.map (fun h => if h.hid == hid then { h with ent := oe } else h)).map Handle.hid
      = l.map Handle.hid := by
  induction l with
  | nil => rfl
  | cons x xs ih =>
    simp only [List.map_cons, ih]
    by_cases hx : x.hid = hid
    · simp [hx]
    · simp [hx]

theorem bindNewEntity_spec (s : MState) (hid : Nat) (hint : Option EntityId)
    (e2 : EntityId) (r : Reg)
    (hc : s.reg.createWithHint hint = (e2, r))
    (hN : ∀ e ∈ s.reg.entities, e.index < s.reg.nextIndex)
    (hW : ∀ p ∈ s.reg.tag, p.1 ∈ s.reg.entities) :
    ∃ s', bindNewEntity s hid hint = some s' ∧
      s'.reg.entities = s.reg.entities ++ [e2] ∧
      alookup s'.reg.tag e2 = some hid ∧
      alookup s'.reg.status e2 = some true ∧
      handleOf s' hid = (handleOf s hid).map (fun h => { h with ent := some e2 }) ∧
      s'.handles.map Handle.hid = s.handles.map Handle.hid ∧
      s'.pendingAdds = s.pendingAdds ∧ s'.pendingDecodes = s.pendingDecodes ∧
      s'.nextHid = s.nextHid ∧ e2 ∉ s.reg.entities := by
  obtain ⟨hent, hnotin, htag, hstat, hcomps, hN2⟩ := createWithHint_spec s.reg hint e2 r hc hN
  have htagnone : alookup r.tag e2 = none := by
    rw [htag, alookup_eq_none_iff]
    intro hk
    rcases List.mem_map.mp hk with ⟨p, hp, hpe⟩
    exact hnotin (hpe ▸ hW p hp)
  have hvalid : r.validIn e2 := by
    show e2 ∈ r.entities
    rw [hent]
    exact List.mem_append_right _ (List.mem_singleton.mpr rfl)
  have hemp : r.emplaceTag e2 hid = some { r with tag := r.tag ++ [(e2, hid)] } := by
    unfold Reg.emplaceTag
    rw [if_pos ⟨hvalid, htagnone⟩]
  refine ⟨{ s with
              reg := { r with
                         tag := r.tag ++ [(e2, hid)]
                         status := aset r.status e2 true }
              handles := s.handles.map (fun h =>
                if h.hid == hid then { h with ent := some e2 } else h) },
    ?_, ?_, ?_, ?_, ?_, ?_, rfl, rfl, rfl, hnotin⟩
  · unfold bindNewEntity setHandleEnt
    rw [hc]
    dsimp only
    rw [hemp]
    simp only [Option.bind_eq_bind, Option.some_bind]
    rw [emplaceOrReplaceStatus_of_valid { r with tag := r.tag ++ [(e2, hid)] } e2 true hvalid]
    simp only [Option.some_bind]
    rfl
  · exact hent
  · show alookup (r.tag ++ [(e2, hid)]) e2 = some hid
    rw [alookup_append_left _ _ _ htagnone]
    simp [alookup]
  · exact alookup_aset_self r.status e2 true
  · exact find?_hid_map_update s.handles hid (some e2)
  · exact map_hid_map_update s.handles hid (some e2)

theorem bindNewEntity_shape (s : MState) (hid : Nat) (hint : Option EntityId) (t2 : MState)
    (h : bindNewEntity s hid hint = some t2) :
    ∃ r hs, t2 = { s with reg := r, handles := hs } := by
  unfold bindNewEntity setHandleEnt at h
  rcases hc : s.reg.createWithHint hint with ⟨e2, r⟩
  rw [hc] at h
  dsimp only at h
  simp only [Option.bind_eq_bind, Option.bind_eq_some] at h
  obtain ⟨r2, hr2, h⟩ := h
  obtain ⟨r3, hr3, h⟩ := h
  cases h
  exact ⟨r3, _, rfl⟩

theorem processPending_shape (s : MState) (hid : Nat) (t2 : MState)
    (h : processPending s hid = some t2) :
    ∃ r hs, t2 = { s with reg := r, handles := hs } := by
  unfold processPending at h
  cases hh : handleOf s hid with
  | none =>
    rw [hh] at h
    simp only [Option.bind_eq_bind, Option.none_bind] at h
    cases h
  | some hd =>
    rw [hh] at h
    simp only [Option.bind_eq_bind, Option.some_bind] at h
    cases hent : hd.ent with
    | some e =>
      rw [hent] at h
      dsimp only at h
      by_cases h1 : entityToReference s (some e) = some hid
      · rw [if_pos h1] at h
        cases h
        exact ⟨s.reg, s.handles, rfl⟩
      · rw [if_neg h1] at h
        by_cases h2 : s.reg.validIn e ∧ entityToReference s (some e) = none
        · rw [if_pos h2] at h
          simp only [Option.bind_eq_bind, Option.bind_eq_some] at h
          obtain ⟨r1, hr1, h⟩ := h
          obtain ⟨r2, hr2, h⟩ := h
          cases h
          exact ⟨r2, s.handles, rfl⟩
        · rw [if_neg h2] at h
          exact bindNewEntity_shape s hid (some e) t2 h
    | none =>
      rw [hent] at h
      exact bindNewEntity_shape s hid none t2 h

theorem applyPendingDecode_shape (s : MState) (p : Nat × List EBlock) (t2 : MState)
    (h : applyPendingDecode s p = some t2) : ∃ r, t2 = { s with reg := r } := by
  unfold applyPendingDecode at h
  cases hh : handleOf s p.1 with
  | none =>
    rw [hh] at h
    cases h
    exact ⟨s.reg, rfl⟩
  | some hd =>
    rw [hh] at h
    dsimp only at h
    cases hent : hd.ent with
    | none =>
      rw [hent] at h
      cases h
      exact ⟨s.reg, rfl⟩
    | some e =>
      rw [hent] at h
      dsimp only at h
      cases hdec : decodeEntityR s.factories s.reg e p.2 with
      | none =>
        rw [hdec] at h
        cases h
      | some r =>
        rw [hdec] at h
        simp only [Option.map_some'] at h
        cases h
        exact ⟨r, rfl⟩

theorem sweepOne_shape (s : MState) (e : EntityId) (t2 : MState)
    (h : sweepOne s e = some t2) :
    ∃ r hs n, t2 = { s with reg := r, handles := hs, nextHid := n } := by
  unfold sweepOne at h
  dsimp only at h
  by_cases h1 : alookup s.reg.tag e = none ∧ alookup s.reg.status e = some true
  · rw [if_pos h1] at h
    cases hm : materializeEntity s e with
    | none =>
      rw [hm] at h
      cases h
    | some q =>
      rw [hm] at h
      simp only [Option.map_some'] at h
      cases h
      exact materializeEntity_shape s e q.1 q.2 (by rw [hm])
  · rw [if_neg h1] at h
    by_cases h2 : alookup s.reg.tag e ≠ none ∧
        (alookup s.reg.status e = none ∨ alookup s.reg.status e = some false)
    · rw [if_pos h2] at h
      exact dematerializeEntity_shape s e t2 h
    · rw [if_neg h2] at h
      cases h
      exact ⟨s.reg, s.handles, s.nextHid, rfl⟩

theorem synchronize_clears_pendingAdds (s0 s1 : MState)
    (hs : s0.syncInProgress = false) (h : synchronize s0 = some s1) :
    s1.pendingAdds = [] := by
  unfold synchronize at h
  rw [if_neg (by rw [hs]; exact Bool.false_ne_true)] at h
  simp only [Option.bind_eq_bind, Option.bind_eq_some] at h
  obtain ⟨t1, h1, h⟩ := h
  obtain ⟨t2, h2, h⟩ := h
  obtain ⟨t3, h3, h⟩ := h
  cases h
  show t3.pendingAdds = []
  have hp2 : t2.pendingAdds = [] := by
    exact foldlM_proj_eq applyPendingDecode (fun t => t.pendingAdds)
      (fun t a t4 hb => by obtain ⟨r, rfl⟩ := applyPendingDecode_shape t a t4 hb; rfl)
      _ _ _ h2
  unfold syncStep3 at h3
  by_cases hd : ({ t2 with pendingDecodes := [] } : MState).registryDirty = true
  · rw [if_pos hd] at h3
    have := foldlM_proj_eq sweepOne (fun t => t.pendingAdds)
      (fun t a t4 hb => by obtain ⟨r, hs2, n, rfl⟩ := sweepOne_shape t a t4 hb; rfl)
      _ _ _ h3
    exact this.trans hp2
  · rw [if_neg hd] at h3
    cases h3
    exact hp2

/-- C5: for each pending newly-observed handle, `Synchronize` step 1:
if the handle's claimed entity id already resolves back to that same
handle, the handle is skipped; otherwise, if the claimed id is valid in
the registry and unclaimed (no `EntityMaterialized` tag, hence no
handle), the handle adopts that existing bare entity without rebinding;
otherwise a new entity is created with the claimed id as a creation
hint and the handle is bound to the returned id.  In both the adoption
and creation cases the entity ends up tagged `EntityMaterialized` with
this handle and `MaterializationStatus = true`.  The pending-additions
queue is empty when `Synchronize` returns. -/
theorem c5_synchronize_pending_adds (s : MState) (hid : Nat) (h : Handle)
    (hh : handleOf s hid = some h)
    (hN : ∀ e ∈ s.reg.entities, e.index < s.reg.nextIndex)
    (hW : ∀ p ∈ s.reg.tag, p.1 ∈ s.reg.entities) :
    ((∀ e, h.ent = some e → entityToReference s (some e) = some hid →
        processPending s hid = some s) ∧
     (∀ e, h.ent = some e → s.reg.validIn e → alookup s.reg.tag e = none →
        processPending s hid = some
          { s with reg := { s.reg with
                              tag := s.reg.tag ++ [(e, hid)]
                              status := aset s.reg.status e true } }) ∧
     (∀ e, h.ent = some e → entityToReference s (some e) ≠ some hid →
        ¬ (s.reg.validIn e ∧ entityToReference s (some e) = none) →
        ∀ e2 r, s.reg.createWithHint (some e) = (e2, r) →
        ∃ s', processPending s hid = some s' ∧
          s'.reg.entities = s.reg.entities ++ [e2] ∧
          alookup s'.reg.tag e2 = some hid ∧
          alookup s'.reg.status e2 = some true ∧
          handleOf s' hid = some { h with ent := some e2 } ∧
          e2 ∉ s.reg.entities) ∧
     (h.ent = none →
        ∀ e2 r, s.reg.createWithHint none = (e2, r) →
        ∃ s', processPending s hid = some s' ∧
          s'.reg.entities = s.reg.entities ++ [e2] ∧
          alookup s'.reg.tag e2 = some hid ∧
          alookup s'.reg.status e2 = some true ∧
          handleOf s' hid = some { h with ent := some e2 } ∧
          e2 ∉ s.reg.entities)) ∧
    (∀ s0 s1, s0.syncInProgress = false → synchronize s0 = some s1 →
        s1.pendingAdds = []) := by
  refine ⟨⟨?_, ?_, ?_, ?_⟩, synchronize_clears_pendingAdds⟩
  · intro e he href
    unfold processPending
    rw [hh]
    simp only [Option.bind_eq_bind, Option.some_bind]
    rw [he]
    dsimp only
    rw [if_pos href]
    rfl
  · intro e he hv htag
    have href : entityToReference s (some e) = none := entityToReference_of_no_tag s e htag
    have hne : ¬ entityToReference s (some e) = some hid := by
      rw [href]
      simp
    unfold processPending
    rw [hh]
    simp only [Option.bind_eq_bind, Option.some_bind]
    rw [he]
    dsimp only
    rw [if_neg hne, if_pos ⟨hv, href⟩]
    rw [show s.reg.emplaceTag e hid = some { s.reg with tag := s.reg.tag ++ [(e, hid)] } from by
      unfold Reg.emplaceTag
      rw [if_pos ⟨hv, htag⟩]]
    simp only [Option.bind_eq_bind, Option.some_bind]
    rw [emplaceOrReplaceStatus_of_valid { s.reg with tag := s.reg.tag ++ [(e, hid)] } e true hv]
    simp only [Option.some_bind]
    rfl
  · intro e he hne hnot e2 r hc
    obtain ⟨s', hbind, hent, htg, hst, hhf, hmap, _, _, _, hnotin⟩ :=
      bindNewEntity_spec s hid (some e) e2 r hc hN hW
    refine ⟨s', ?_, hent, htg, hst, ?_, hnotin⟩
    · unfold processPending
      rw [hh]
      simp only [Option.bind_eq_bind, Option.some_bind]
      rw [he]
      dsimp only
      rw [if_neg hne, if_neg hnot]
      exact hbind
    · rw [hhf, hh]
      simp [Option.map_some']
  · intro he e2 r hc
    obtain ⟨s', hbind, hent, htg, hst, hhf, hmap, _, _, _, hnotin⟩ :=
      bindNewEntity_spec s hid none e2 r hc hN hW
    refine ⟨s', ?_, hent, htg, hst, ?_, hnotin⟩
    · unfold processPending
      rw [hh]
      simp only [Option.bind_eq_bind, Option.some_bind]
      rw [he]
      dsimp only
      exact hbind
    · rw [hhf, hh]
      simp [Option.map_some']

def c5state : MState :=
  { baseState with
      reg := { entities := [⟨3, 1⟩], nextIndex := 4, tag := [], status := [], comps := [] }
      handles := [⟨10, some ⟨3, 1⟩⟩]
      nextHid := 11
      pendingAdds := [10] }

theorem c5_synchronize_pending_adds_witness :
    handleOf c5state 10 = some ⟨10, some ⟨3, 1⟩⟩ ∧
    (∀ e ∈ c5state.reg.entities, e.index < c5state.reg.nextIndex) ∧
    (∀ p ∈ c5state.reg.tag, p.1 ∈ c5state.reg.entities) ∧
    (((∀ e, (⟨10, some ⟨3, 1⟩⟩ : Handle).ent = some e →
        entityToReference c5state (some e) = some 10 →
        processPending c5state 10 = some c5state) ∧
     (∀ e, (⟨10, some ⟨3, 1⟩⟩ : Handle).ent = some e → c5state.reg.validIn e →
        alookup c5state.reg.tag e = none →
        processPending c5state 10 = some
          { c5state with reg := { c5state.reg with
                              tag := c5state.reg.tag ++ [(e, 10)]
                              status := aset c5state.reg.status e true } }) ∧
     (∀ e, (⟨10, some ⟨3, 1⟩⟩ : Handle).ent = some e →
        entityToReference c5state (some e) ≠ some 10 →
        ¬ (c5state.reg.validIn e ∧ entityToReference c5state (some e) = none) →
        ∀ e2 r, c5state.reg.createWithHint (some e) = (e2, r) →
        ∃ s', processPending c5state 10 = some s' ∧
          s'.reg.entities = c5state.reg.entities ++ [e2] ∧
          alookup s'.reg.tag e2 = some 10 ∧
          alookup s'.reg.status e2 = some true ∧
          handleOf s' 10 = some { (⟨10, some ⟨3, 1⟩⟩ : Handle) with ent := some e2 } ∧
          e2 ∉ c5state.reg.entities) ∧
     ((⟨10, some ⟨3, 1⟩⟩ : Handle).ent = none →
        ∀ e2 r, c5state.reg.createWithHint none = (e2, r) →
        ∃ s', processPending c5state 10 = some s' ∧
          s'.reg.entities = c5state.reg.entities ++ [e2] ∧
          alookup s'.reg.tag e2 = some 10 ∧
          alookup s'.reg.status e2 = some true ∧
          handleOf s' 10 = some { (⟨10, some ⟨3, 1⟩⟩ : Handle) with ent := some e2 } ∧
          e2 ∉ c5state.reg.entities)) ∧
    (∀ s0 s1, s0.syncInProgress = false → synchronize s0 = some s1 →
        s1.pendingAdds = [])) :=
  ⟨by decide, by decide, by decide,
    c5_synchronize_pending_adds c5state 10 ⟨10, some ⟨3, 1⟩⟩ (by decide) (by decide) (by decide)⟩

/-! Helpers for per-entity serialization (C4). -/

theorem alookup_append_single_ne {κ α : Type} [DecidableEq κ] (l : List (κ × α)) (k k' : κ)
    (v : α) (h : k' ≠ k) : alookup (l ++ [(k, v)]) k' = alookup l k' := by
  induction l with
  | nil =>
    simp only [List.nil_append, alookup]
    rw [if_neg (fun hh => h hh.symm)]
  | cons p l ih =>
    by_cases hp : p.1 = k'
    · simp [alookup, hp]
    · simp only [List.cons_append, alookup, if_neg hp]
      exact ih

theorem storageOf_update_self (r : Reg) (nm : String) (x : List (EntityId × Nat)) :
    Reg.storageOf { r with comps := aset r.comps nm x } nm = x := by
  unfold Reg.storageOf
  rw [alookup_aset_self]
  rfl

theorem storageOf_update_other (r : Reg) (nm nm' : String) (x : List (EntityId × Nat))
    (h : nm' ≠ nm) :
    Reg.storageOf { r with comps := aset r.comps nm x } nm' = r.storageOf nm' := by
  unfold Reg.storageOf
  rw [alookup_aset_ne _ _ _ _ h]

theorem hasComp_false_notin (r : Reg) (nm : String) (e : EntityId)
    (h : r.hasComp nm e = false) : e ∉ akeys (r.storageOf nm) := by
  unfold Reg.hasComp at h
  rw [← alookup_eq_none_iff]
  exact Option.not_isSome_iff_eq_none.mp (by rw [h]; exact Bool.false_ne_true)

theorem setComp_storage_self (r : Reg) (nm : String) (e : EntityId) (v : Nat) :
    (r.setComp nm e v).storageOf nm = aset (r.storageOf nm) e v := by
  unfold Reg.setComp
  exact storageOf_update_self r nm _

theorem setComp_storage_other (r : Reg) (nm nm' : String) (e : EntityId) (v : Nat)
    (h : nm' ≠ nm) : (r.setComp nm e v).storageOf nm' = r.storageOf nm' := by
  unfold Reg.setComp
  exact storageOf_update_other r nm nm' _ h

theorem emplaceComp_of (r : Reg) (nm : String) (e : EntityId)
    (hv : r.validIn e) (hh : r.hasComp nm e = false) :
    r.emplaceComp nm e = some { r with comps := aset r.comps nm (r.storageOf nm ++ [(e, 0)]) } := by
  unfold Reg.emplaceComp
  rw [if_pos ⟨hv, hh⟩]

theorem removeComp_of (r : Reg) (nm : String) (e : EntityId) (hv : r.validIn e) :
    r.removeComp nm e = some { r with comps := aset r.comps nm (aremove (r.storageOf nm) e) } := by
  unfold Reg.removeComp
  rw [if_pos hv]

theorem keys_append_single_nodup {κ α : Type} (l : List (κ × α)) (k : κ) (v : α)
    (hn : (akeys l).Nodup) (hk : k ∉ akeys l) : (akeys (l ++ [(k, v)])).Nodup := by
  unfold akeys at hn hk ⊢
  rw [List.map_append]
  simp only [List.map_cons, List.map_nil]
  rw [List.nodup_append]
  exact ⟨hn, List.nodup_singleton k, by simpa using hk⟩

theorem decodeBlockR_known (facs : List Factory) (e : EntityId) (r : Reg) (b : EBlock)
    (hf : (findFactory facs b.typeName).isSome = true)
    (hv : r.validIn e)
    (hK : ∀ nm, (akeys (r.storageOf nm)).Nodup) :
    ∃ r2, decodeBlockR facs e r b = some r2 ∧
      r2.entities = r.entities ∧
      r2.tag = r.tag ∧ r2.status = r.status ∧
      (∀ nm, (akeys (r2.storageOf nm)).Nodup) ∧
      r2.hasComp b.typeName e = b.shouldExist ∧
      (b.shouldExist = true → r2.getComp b.typeName e = b.payload.getD 0) ∧
      (∀ nm, nm ≠ b.typeName → r2.storageOf nm = r.storageOf nm) := by
  cases hff : findFactory facs b.typeName with
  | none => rw [hff] at hf; cases hf
  | some f =>
    unfold decodeBlockR
    rw [hff]
    dsimp only
    by_cases hse : b.shouldExist = true
    · rw [if_pos hse]
      by_cases hhas : r.hasComp b.typeName e = true
      · rw [if_pos hhas]
        simp only [Option.bind_eq_bind, Option.some_bind]
        refine ⟨r.setComp b.typeName e (b.payload.getD 0), rfl, rfl, rfl, rfl, ?_, ?_, ?_, ?_⟩
        · intro nm
          by_cases hnm : nm = b.typeName
          · subst hnm
            rw [setComp_storage_self]
            exact akeys_aset_nodup _ _ _ (hK b.typeName)
          · rw [setComp_storage_other _ _ _ _ _ hnm]
            exact hK nm
        · unfold Reg.hasComp
          rw [setComp_storage_self, alookup_aset_self, hse]
          rfl
        · intro _
          unfold Reg.getComp
          rw [setComp_storage_self, alookup_aset_self]
          rfl
        · intro nm hnm
          exact setComp_storage_other _ _ _ _ _ hnm
      · rw [if_neg hhas]
        have hhf : r.hasComp b.typeName e = false := by
          cases hcc : r.hasComp b.typeName e
          · rfl
          · exact absurd hcc hhas
        rw [emplaceComp_of r b.typeName e hv hhf]
        simp only [Option.bind_eq_bind, Option.some_bind]
        have hnotin : e ∉ akeys (r.storageOf b.typeName) := hasComp_false_notin r _ e hhf
        set r1 : Reg := { r with comps := aset r.comps b.typeName (r.storageOf b.typeName ++ [(e, 0)]) } with hr1
        have hst1self : r1.storageOf b.typeName = r.storageOf b.typeName ++ [(e, 0)] :=
          storageOf_update_self r _ _
        have hst1other : ∀ nm, nm ≠ b.typeName → r1.storageOf nm = r.storageOf nm :=
          fun nm hnm => storageOf_update_other r _ nm _ hnm
        refine ⟨r1.setComp b.typeName e (b.payload.getD 0), rfl, rfl, rfl, rfl, ?_, ?_, ?_, ?_⟩
        · intro nm
          by_cases hnm : nm = b.typeName
          · subst hnm
            rw [setComp_storage_self, hst1self]
            exact akeys_aset_nodup _ _ _ (keys_append_single_nodup _ _ _ (hK b.typeName) hnotin)
          · rw [setComp_storage_other _ _ _ _ _ hnm, hst1other nm hnm]
            exact hK nm
        · unfold Reg.hasComp
          rw [setComp_storage_self, alookup_aset_self, hse]
          rfl
        · intro _
          unfold Reg.getComp
          rw [setComp_storage_self, alookup_aset_self]
          rfl
        · intro nm hnm
          rw [setComp_storage_other _ _ _ _ _ hnm]
          exact hst1other nm hnm
    · rw [if_neg hse]
      have hsf : b.shouldExist = false := by
        cases hcc : b.shouldExist
        · rfl
        · exact absurd hcc hse
      by_cases hhas : r.hasComp b.typeName e = true
      · rw [if_pos hhas]
        rw [removeComp_of r b.typeName e hv]
        refine ⟨_, rfl, rfl, rfl, rfl, ?_, ?_, ?_, ?_⟩
        · intro nm
          by_cases hnm : nm = b.typeName
          · subst hnm
            rw [storageOf_update_self]
            exact akeys_aremove_nodup _ _ (hK b.typeName)
          · rw [storageOf_update_other _ _ _ _ hnm]
            exact hK nm
        · unfold Reg.hasComp
          rw [storageOf_update_self, alookup_aremove_self _ _ (hK b.typeName), hsf]
          rfl
        · intro hcon
          rw [hcon] at hsf
          cases hsf
        · intro nm hnm
          exact storageOf_update_other _ _ _ _ hnm
      · rw [if_neg hhas]
        refine ⟨r, rfl, rfl, rfl, rfl, hK, ?_, ?_, fun nm _ => rfl⟩
        · rw [hsf]
          cases hcc : r.hasComp b.typeName e
          · rfl
          · exact absurd hcc hhas
        · intro hcon
          rw [hcon] at hsf
          cases hsf

theorem decodeBlocksR_fold (facs : List Factory) (e : EntityId) :
    ∀ (bs : List EBlock) (r : Reg),
      (bs.map EBlock.typeName).Nodup →
      (∀ b ∈ bs, (findFactory facs b.typeName).isSome = true) →
      r.validIn e →
      (∀ nm, (akeys (r.storageOf nm)).Nodup) →
      ∃ r2, bs.foldlM (decodeBlockR facs e) r = some r2 ∧
        r2.entities = r.entities ∧
        (∀ nm, (akeys (r2.storageOf nm)).Nodup) ∧
        (∀ b ∈ bs, r2.hasComp b.typeName e = b.shouldExist ∧
          (b.shouldExist = true → r2.getComp b.typeName e = b.payload.getD 0)) ∧
        (∀ nm, (∀ b ∈ bs, b.typeName ≠ nm) → r2.storageOf nm = r.storageOf nm) := by
  intro bs
  induction bs with
  | nil =>
    intro r hnd hkn hv hK
    exact ⟨r, rfl, rfl, hK, by simp, fun nm _ => rfl⟩
  | cons b bs ih =>
    intro r hnd hkn hv hK
    obtain ⟨r1, hb, hent1, htag1, hstat1, hK1, hhas1, hget1, hoth1⟩ :=
      decodeBlockR_known facs e r b (hkn b (List.mem_cons_self b bs)) hv hK
    simp only [List.map_cons, List.nodup_cons] at hnd
    have hv1 : r1.validIn e := by
      show e ∈ r1.entities
      rw [hent1]
      exact hv
    obtain ⟨r2, hfold, hent2, hK2, hbs2, hoth2⟩ :=
      ih r1 hnd.2 (fun b' hb' => hkn b' (List.mem_cons_of_mem b hb')) hv1 hK1
    have hbnotin : ∀ b'' ∈ bs, b''.typeName ≠ b.typeName := by
      intro b'' hb'' hcon
      exact hnd.1 (hcon ▸ List.mem_map.mpr ⟨b'', hb'', rfl⟩)
    refine ⟨r2, ?_, hent2.trans hent1, hK2, ?_, ?_⟩
    · rw [List.foldlM_cons, hb]
      simp only [Option.bind_eq_bind, Option.some_bind]
      exact hfold
    · intro b' hb'
      rcases List.mem_cons.mp hb' with hb1 | hb1
      · subst hb1
        have hst : r2.storageOf b'.typeName = r1.storageOf b'.typeName :=
          hoth2 b'.typeName hbnotin
        constructor
        · unfold Reg.hasComp
          rw [hst]
          exact hhas1
        · intro hex
          unfold Reg.getComp
          rw [hst]
          exact hget1 hex
      · exact hbs2 b' hb1
    · intro nm hnm
      rw [hoth2 nm (fun b'' hb'' => hnm b'' (List.mem_cons_of_mem b hb''))]
      exact hoth1 nm (fun hcon => hnm b (List.mem_cons_self b bs) hcon.symm)

theorem destroyAllComps_spec (facs : List Factory) :
    ∀ (r : Reg) (e : EntityId), r.validIn e → (∀ nm, (akeys (r.storageOf nm)).Nodup) →
    ∃ r1, destroyAllComps facs r e = some r1 ∧ r1.entities = r.entities ∧
      (∀ nm, (akeys (r1.storageOf nm)).Nodup) := by
  induction facs with
  | nil =>
    intro r e hv hK
    exact ⟨r, rfl, rfl, hK⟩
  | cons f facs ih =>
    intro r e hv hK
    by_cases hhas : r.hasComp f.name e = true
    · have h1 : Reg.removeComp r f.name e
          = some { r with comps := aset r.comps f.name (aremove (r.storageOf f.name) e) } :=
        removeComp_of r f.name e hv
      have hK1 : ∀ nm, (akeys ((({ r with comps := aset r.comps f.name (aremove (r.storageOf f.name) e) }) : Reg).storageOf nm)).Nodup := by
        intro nm
        by_cases hnm : nm = f.name
        · subst hnm
          rw [storageOf_update_self]
          exact akeys_aremove_nodup _ _ (hK f.name)
        · rw [storageOf_update_other _ _ _ _ hnm]
          exact hK nm
      obtain ⟨r1, hrest, hent, hK2⟩ := ih { r with comps := aset r.comps f.name (aremove (r.storageOf f.name) e) } e hv hK1
      refine ⟨r1, ?_, hent, hK2⟩
      unfold destroyAllComps
      rw [List.foldlM_cons]
      rw [if_pos hhas, h1]
      simp only [Option.bind_eq_bind, Option.some_bind]
      exact hrest
    · obtain ⟨r1, hrest, hent, hK2⟩ := ih r e hv hK
      refine ⟨r1, ?_, hent, hK2⟩
      unfold destroyAllComps
      rw [List.foldlM_cons]
      rw [if_neg hhas]
      simp only [Option.bind_eq_bind, Option.some_bind]
      exact hrest

theorem encode_blocks_facts (facs : List Factory) (rx : Reg) (ex : EntityId)
    (hvx : rx.validIn ex) (hNames : (facs.map Factory.name).Nodup) :
    ((encodeEntityR facs rx ex).map EBlock.typeName).Nodup ∧
    (∀ b ∈ encodeEntityR facs rx ex, (findFactory facs b.typeName).isSome = true) ∧
    (∀ f ∈ sortFactories facs,
      ({ typeName := f.name, shouldExist := rx.hasComp f.name ex, version := f.version,
         payload := if rx.hasComp f.name ex then some (rx.getComp f.name ex) else none } : EBlock)
        ∈ encodeEntityR facs rx ex) := by
  have hperm := sortFactories_perm facs
  have hsnames : ((sortFactories facs).map Factory.name).Nodup :=
    (hperm.map Factory.name).nodup_iff.mpr hNames
  unfold encodeEntityR
  rw [if_pos hvx]
  refine ⟨?_, ?_, ?_⟩
  · rw [List.map_map]
    exact hsnames
  · intro b hb
    rcases List.mem_map.mp hb with ⟨f, hf, rfl⟩
    have hf2 : f ∈ facs := hperm.mem_iff.mp hf
    dsimp only
    unfold findFactory
    rw [List.find?_isSome]
    exact ⟨f, hf2, by simp⟩
  · intro f hf
    exact List.mem_map.mpr ⟨f, hf, rfl⟩

/-- C4: per-entity decode is a complete replacement over the
registered factories: a block with existence flag true creates the
component if absent and deserializes its payload, a block with flag
false destroys a present component.  Hence (a) encoding an entity,
destroying all its components, and decoding the bytes restores the
original per-type presence and payloads exactly, and (b) decoding
the encoding of a zero-component entity destroys every preexisting
registered component on the decode target. -/
theorem c4_entity_complete_replacement (facs : List Factory) (r r0 : Reg) (e e0 : EntityId)
    (hv : r.validIn e)
    (hK : ∀ nm, (akeys (r.storageOf nm)).Nodup)
    (hNames : (facs.map Factory.name).Nodup)
    (hv0 : r0.validIn e0)
    (hzero : ∀ f ∈ facs, r0.hasComp f.name e0 = false) :
    (∃ r1 r2, destroyAllComps facs r e = some r1 ∧
      decodeEntityR facs r1 e (encodeEntityR facs r e) = some r2 ∧
      ∀ f ∈ facs, r2.hasComp f.name e = r.hasComp f.name e ∧
        (r.hasComp f.name e = true → r2.getComp f.name e = r.getComp f.name e)) ∧
    (∃ r3, decodeEntityR facs r e (encodeEntityR facs r0 e0) = some r3 ∧
      ∀ f ∈ facs, r3.hasComp f.name e = false) := by
  obtain ⟨r1, hdest, hent1, hK1⟩ := destroyAllComps_spec facs r e hv hK
  obtain ⟨hnodup, hknown, hmemfun⟩ := encode_blocks_facts facs r e hv hNames
  have hv1 : r1.validIn e := by
    show e ∈ r1.entities
    rw [hent1]
    exact hv
  obtain ⟨r2, hfold, hent2, hK2, hbs, hoth⟩ :=
    decodeBlocksR_fold facs e (encodeEntityR facs r e) r1 hnodup hknown hv1 hK1
  obtain ⟨hnodup0, hknown0, hmemfun0⟩ := encode_blocks_facts facs r0 e0 hv0 hNames
  obtain ⟨r3, hfold0, hent3, hK3, hbs0, hoth0⟩ :=
    decodeBlocksR_fold facs e (encodeEntityR facs r0 e0) r hnodup0 hknown0 hv hK
  refine ⟨⟨r1, r2, hdest, ?_, ?_⟩, ⟨r3, ?_, ?_⟩⟩
  · unfold decodeEntityR
    rw [if_pos hv1]
    exact hfold
  · intro f hf
    have hfs : f ∈ sortFactories facs := (sortFactories_perm facs).mem_iff.mpr hf
    obtain ⟨hhh, hgg⟩ := hbs _ (hmemfun f hfs)
    refine ⟨hhh, ?_⟩
    intro hex
    have h2 := hgg hex
    rw [if_pos hex] at h2
    exact h2
  · unfold decodeEntityR
    rw [if_pos hv]
    exact hfold0
  · intro f hf
    have hfs : f ∈ sortFactories facs := (sortFactories_perm facs).mem_iff.mpr hf
    exact ((hbs0 _ (hmemfun0 f hfs)).1).trans (hzero f hf)

def c4facs : List Factory := [⟨"Health", 1, []⟩, ⟨"Flag", 0, []⟩]

def c4reg : Reg :=
  { entities := [⟨0, 0⟩], nextIndex := 1, tag := [], status := []
    comps := [("Health", [(⟨0, 0⟩, 42)])] }

def c4reg0 : Reg :=
  { entities := [⟨2, 0⟩], nextIndex := 3, tag := [], status := [], comps := [] }

theorem c4_entity_complete_replacement_witness :
    (c4reg.validIn ⟨0, 0⟩ ∧ (∀ nm, (akeys (c4reg.storageOf nm)).Nodup) ∧
      (c4facs.map Factory.name).Nodup ∧ c4reg0.validIn ⟨2, 0⟩ ∧
      (∀ f ∈ c4facs, c4reg0.hasComp f.name ⟨2, 0⟩ = false)) ∧
    ((∃ r1 r2, destroyAllComps c4facs c4reg ⟨0, 0⟩ = some r1 ∧
      decodeEntityR c4facs r1 ⟨0, 0⟩ (encodeEntityR c4facs c4reg ⟨0, 0⟩) = some r2 ∧
      ∀ f ∈ c4facs, r2.hasComp f.name ⟨0, 0⟩ = c4reg.hasComp f.name ⟨0, 0⟩ ∧
        (c4reg.hasComp f.name ⟨0, 0⟩ = true →
          r2.getComp f.name ⟨0, 0⟩ = c4reg.getComp f.name ⟨0, 0⟩)) ∧
    (∃ r3, decodeEntityR c4facs c4reg ⟨0, 0⟩ (encodeEntityR c4facs c4reg0 ⟨2, 0⟩) = some r3 ∧
      ∀ f ∈ c4facs, r3.hasComp f.name ⟨0, 0⟩ = false)) := by
  have hKc : ∀ nm, (akeys (c4reg.storageOf nm)).Nodup := by
    intro nm
    show (akeys ((alookup c4reg.comps nm).getD [])).Nodup
    cases hl : alookup c4reg.comps nm with
    | none => exact List.nodup_nil
    | some st =>
      have heq := List.mem_singleton.mp (alookup_mem hl)
      have hst : st = [((⟨0, 0⟩ : EntityId), 42)] := congrArg Prod.snd heq
      rw [hst]
      decide
  exact ⟨⟨by decide, hKc, by decide, by decide, by decide⟩,
    c4_entity_complete_replacement c4facs c4reg c4reg0 ⟨0, 0⟩ ⟨2, 0⟩
      (by decide) hKc (by decide) (by decide) (by decide)⟩

/-! Helpers for registry-wide serialization (C1). -/

theorem aset_fold_from (items : List (EntityId × Bool)) :
    ∀ acc, (akeys items).Nodup → (∀ p ∈ items, p.1 ∉ akeys acc) →
    items.foldl (fun l p => aset l p.1 p.2) acc = acc ++ items := by
  induction items with
  | nil =>
    intro acc _ _
    simp
  | cons p items ih =>
    intro acc hn hd
    simp only [akeys, List.map_cons, List.nodup_cons] at hn
    have habs : alookup acc p.1 = none :=
      (alookup_eq_none_iff acc p.1).mpr (hd p (List.mem_cons_self p items))
    simp only [List.foldl_cons]
    rw [aset_absent _ _ _ habs]
    rw [ih (acc ++ [(p.1, p.2)]) hn.2 ?_]
    · simp
    · intro q hq
      unfold akeys
      rw [List.map_append]
      simp only [List.mem_append, List.map_cons, List.map_nil, List.mem_singleton]
      rintro (hc1 | hc2)
      · exact hd q (List.mem_cons_of_mem p hq) hc1
      · exact hn.1 (hc2 ▸ List.mem_map.mpr ⟨q, hq, rfl⟩)

theorem asetN_fold_from (items : List (EntityId × Nat)) :
    ∀ acc, (akeys items).Nodup → (∀ p ∈ items, p.1 ∉ akeys acc) →
    items.foldl (fun l p => aset l p.1 p.2) acc = acc ++ items := by
  induction items with
  | nil =>
    intro acc _ _
    simp
  | cons p items ih =>
    intro acc hn hd
    simp only [akeys, List.map_cons, List.nodup_cons] at hn
    have habs : alookup acc p.1 = none :=
      (alookup_eq_none_iff acc p.1).mpr (hd p (List.mem_cons_self p items))
    simp only [List.foldl_cons]
    rw [aset_absent _ _ _ habs]
    rw [ih (acc ++ [(p.1, p.2)]) hn.2 ?_]
    · simp
    · intro q hq
      unfold akeys
      rw [List.map_append]
      simp only [List.mem_append, List.map_cons, List.map_nil, List.mem_singleton]
      rintro (hc1 | hc2)
      · exact hd q (List.mem_cons_of_mem p hq) hc1
      · exact hn.1 (hc2 ▸ List.mem_map.mpr ⟨q, hq, rfl⟩)

theorem decode_entities_fold (es : List EntityId) :
    ∀ r : Reg, (es.map EntityId.index).Nodup →
    (∀ e ∈ es, e.index ∉ r.liveIndices) →
    (es.foldl (fun r2 e => (r2.createWithHint (some e)).2) r).entities = r.entities ++ es ∧
    (es.foldl (fun r2 e => (r2.createWithHint (some e)).2) r).tag = r.tag ∧
    (es.foldl (fun r2 e => (r2.createWithHint (some e)).2) r).status = r.status ∧
    (es.foldl (fun r2 e => (r2.createWithHint (some e)).2) r).comps = r.comps := by
  induction es with
  | nil =>
    intro r _ _
    simp
  | cons e es ih =>
    intro r hn hd
    simp only [List.map_cons, List.nodup_cons] at hn
    have hni : e.index ∉ r.liveIndices := hd e (List.mem_cons_self e es)
    have hstep : (r.createWithHint (some e)).2
        = { r with entities := r.entities ++ [e], nextIndex := max r.nextIndex (e.index + 1) } := by
      unfold Reg.createWithHint
      dsimp only
      rw [if_neg hni]
    simp only [List.foldl_cons]
    rw [hstep]
    have hd2 : ∀ e2 ∈ es, e2.index ∉
        Reg.liveIndices { r with entities := r.entities ++ [e], nextIndex := max r.nextIndex (e.index + 1) } := by
      intro e2 he2
      unfold Reg.liveIndices
      simp only [List.map_append, List.mem_append, List.map_cons, List.map_nil,
        List.mem_singleton]
      rintro (hc1 | hc2)
      · exact hd e2 (List.mem_cons_of_mem e he2) hc1
      · exact hn.1 (hc2 ▸ List.mem_map.mpr ⟨e2, he2, rfl⟩)
    obtain ⟨h1, h2, h3, h4⟩ := ih _ hn.2 hd2
    refine ⟨?_, h2, h3, h4⟩
    rw [h1]
    simp

theorem decode_status_fold (sts : List (EntityId × Bool)) :
    ∀ r : Reg, (∀ p ∈ sts, p.1 ∈ r.entities) →
    ∃ r2, sts.foldlM (fun r3 (p : EntityId × Bool) => r3.emplaceOrReplaceStatus p.1 p.2) r
        = some r2 ∧
      r2.status = sts.foldl (fun l p => aset l p.1 p.2) r.status ∧
      r2.entities = r.entities ∧ r2.tag = r.tag ∧ r2.comps = r.comps ∧
      r2.nextIndex = r.nextIndex := by
  induction sts with
  | nil =>
    intro r _
    exact ⟨r, rfl, rfl, rfl, rfl, rfl, rfl⟩
  | cons p sts ih =>
    intro r hv
    have hstep := emplaceOrReplaceStatus_of_valid r p.1 p.2 (hv p (List.mem_cons_self p sts))
    obtain ⟨r2, hfold, hst, hent, htg, hcm, hnx⟩ :=
      ih { r with status := aset r.status p.1 p.2 }
        (fun q hq => hv q (List.mem_cons_of_mem p hq))
    refine ⟨r2, ?_, ?_, hent, htg, hcm, hnx⟩
    · rw [List.foldlM_cons, hstep]
      simp only [Option.bind_eq_bind, Option.some_bind]
      exact hfold
    · rw [hst]
      simp

theorem decode_storage_items_fold (nm : String) (items : List (EntityId × Nat)) :
    ∀ r : Reg, (∀ p ∈ items, p.1 ∈ r.entities) →
    ∃ r2, items.foldlM (fun r3 (q : EntityId × Nat) => r3.emplaceOrReplaceComp nm q.1 q.2) r
        = some r2 ∧
      r2.storageOf nm = items.foldl (fun l q => aset l q.1 q.2) (r.storageOf nm) ∧
      (∀ nm2, nm2 ≠ nm → r2.storageOf nm2 = r.storageOf nm2) ∧
      r2.entities = r.entities ∧ r2.tag = r.tag ∧ r2.status = r.status ∧
      r2.nextIndex = r.nextIndex := by
  induction items with
  | nil =>
    intro r _
    exact ⟨r, rfl, rfl, fun _ _ => rfl, rfl, rfl, rfl, rfl⟩
  | cons q items ih =>
    intro r hv
    have hval : r.validIn q.1 := hv q (List.mem_cons_self q items)
    have hstep : r.emplaceOrReplaceComp nm q.1 q.2
        = some { r with comps := aset r.comps nm (aset (r.storageOf nm) q.1 q.2) } := by
      unfold Reg.emplaceOrReplaceComp
      rw [if_pos hval]
    obtain ⟨r2, hfold, hsto, hoth, hent, htg, hst, hnx⟩ :=
      ih { r with comps := aset r.comps nm (aset (r.storageOf nm) q.1 q.2) }
        (fun p hp => hv p (List.mem_cons_of_mem q hp))
    refine ⟨r2, ?_, ?_, ?_, hent, htg, hst, hnx⟩
    · rw [List.foldlM_cons, hstep]
      simp only [Option.bind_eq_bind, Option.some_bind]
      exact hfold
    · rw [hsto, storageOf_update_self]
      simp
    · intro nm2 hnm2
      rw [hoth nm2 hnm2, storageOf_update_other _ _ _ _ hnm2]

theorem decode_storages_fold (facs : List Factory)
    (blocks : List (String × Nat × List (EntityId × Nat))) :
    ∀ r : Reg, (blocks.map Prod.fst).Nodup →
    (∀ blk ∈ blocks, (findFactory facs blk.1).isSome = true) →
    (∀ blk ∈ blocks, ∀ p ∈ blk.2.2, p.1 ∈ r.entities) →
    ∃ r2, blocks.foldlM (fun r3 blk =>
        match findFactory facs blk.1 with
        | none => some r3
        | some _ => blk.2.2.foldlM
            (fun r4 (q : EntityId × Nat) => r4.emplaceOrReplaceComp blk.1 q.1 q.2) r3) r
      = some r2 ∧
      (∀ blk ∈ blocks,
        r2.storageOf blk.1 = blk.2.2.foldl (fun l q => aset l q.1 q.2) (r.storageOf blk.1)) ∧
      (∀ nm, (∀ blk ∈ blocks, blk.1 ≠ nm) → r2.storageOf nm = r.storageOf nm) ∧
      r2.entities = r.entities ∧ r2.tag = r.tag ∧ r2.status = r.status ∧
      r2.nextIndex = r.nextIndex := by
  induction blocks with
  | nil =>
    intro r _ _ _
    exact ⟨r, rfl, by simp, fun _ _ => rfl, rfl, rfl, rfl, rfl⟩
  | cons blk blocks ih =>
    intro r hnd hkn hv
    simp only [List.map_cons, List.nodup_cons] at hnd
    cases hff : findFactory facs blk.1 with
    | none =>
      have := hkn blk (List.mem_cons_self blk blocks)
      rw [hff] at this
      cases this
    | some f =>
      obtain ⟨r1, hfold1, hsto1, hoth1, hent1, htg1, hst1, hnx1⟩ :=
        decode_storage_items_fold blk.1 blk.2.2 r
          (fun p hp => hv blk (List.mem_cons_self blk blocks) p hp)
      obtain ⟨r2, hfold2, hsto2, hoth2, hent2, htg2, hst2, hnx2⟩ :=
        ih r1 hnd.2 (fun b hb => hkn b (List.mem_cons_of_mem blk hb))
          (fun b hb p hp => by
            rw [hent1]
            exact hv b (List.mem_cons_of_mem blk hb) p hp)
      have hblknotin : ∀ b ∈ blocks, b.1 ≠ blk.1 := by
        intro b hb hcon
        exact hnd.1 (hcon ▸ List.mem_map.mpr ⟨b, hb, rfl⟩)
      refine ⟨r2, ?_, ?_, ?_, hent2.trans hent1, htg2.trans htg1, hst2.trans hst1,
        hnx2.trans hnx1⟩
      · rw [List.foldlM_cons]
        rw [hff]
        simp only [Option.bind_eq_bind]
        rw [hfold1]
        simp only [Option.some_bind]
        exact hfold2
      · intro b hb
        rcases List.mem_cons.mp hb with hb1 | hb1
        · subst hb1
          rw [hoth2 b.1 hblknotin]
          exact hsto1
        · rw [hsto2 b hb1, hoth1 b.1 (hblknotin b hb1)]
      · intro nm hnm
        rw [hoth2 nm (fun b hb => hnm b (List.mem_cons_of_mem blk hb))]
        exact hoth1 nm (Ne.symm (hnm blk (List.mem_cons_self blk blocks)))

theorem retag_fold (s : MState) (tg : List (EntityId × Nat)) :
    ∀ r : Reg,
    (∀ p ∈ tg, p.1 ∈ r.entities) →
    (akeys tg).Nodup →
    (∀ p ∈ tg, ∃ h, handleOf s p.2 = some h ∧ h.ent = some p.1) →
    (∀ p ∈ tg, p.1 ∉ akeys r.tag) →
    ∃ r2, (tg.map Prod.snd).foldlM (fun r3 hid =>
        match handleOf s hid with
        | none => none
        | some h =>
          match h.ent with
          | some e => if r3.validIn e then r3.emplaceTag e hid else some r3
          | none => some r3) r
      = some r2 ∧
      r2.tag = r.tag ++ tg ∧
      r2.entities = r.entities ∧ r2.status = r.status ∧ r2.comps = r.comps := by
  induction tg with
  | nil =>
    intro r _ _ _ _
    exact ⟨r, rfl, by simp, rfl, rfl, rfl⟩
  | cons p tg ih =>
    intro r hv hnd hh hd
    simp only [akeys, List.map_cons, List.nodup_cons] at hnd
    obtain ⟨h, hhs, hhe⟩ := hh p (List.mem_cons_self p tg)
    have habs : alookup r.tag p.1 = none :=
      (alookup_eq_none_iff _ _).mpr (hd p (List.mem_cons_self p tg))
    have hval : r.validIn p.1 := hv p (List.mem_cons_self p tg)
    have hstep : r.emplaceTag p.1 p.2 = some { r with tag := r.tag ++ [(p.1, p.2)] } := by
      unfold Reg.emplaceTag
      rw [if_pos ⟨hval, habs⟩]
    obtain ⟨r2, hfold, htg, hent, hst, hcm⟩ :=
      ih { r with tag := r.tag ++ [(p.1, p.2)] }
        (fun q hq => hv q (List.mem_cons_of_mem p hq))
        hnd.2
        (fun q hq => hh q (List.mem_cons_of_mem p hq))
        (fun q hq => by
          unfold akeys
          rw [List.map_append]
          simp only [List.mem_append, List.map_cons, List.map_nil, List.mem_singleton]
          rintro (hc1 | hc2)
          · exact hd q (List.mem_cons_of_mem p hq) hc1
          · exact hnd.1 (hc2 ▸ List.mem_map.mpr ⟨q, hq, rfl⟩))
    refine ⟨r2, ?_, ?_, hent, hst, hcm⟩
    · rw [List.map_cons, List.foldlM_cons, hhs]
      dsimp only
      rw [hhe]
      dsimp only
      rw [if_pos hval, hstep]
      simp only [Option.bind_eq_bind, Option.some_bind]
      exact hfold
    · rw [htg]
      simp

theorem storageOf_nil (r : Reg) (nm : String) (h : r.comps = []) : r.storageOf nm = [] := by
  unfold Reg.storageOf
  rw [h]
  rfl

theorem storageOf_congr (r r2 : Reg) (nm : String) (h : r.comps = r2.comps) :
    r.storageOf nm = r2.storageOf nm := by
  unfold Reg.storageOf
  rw [h]

theorem pair_key_index {α : Type} (l : List (EntityId × α)) :
    l.map (fun p => p.1.index) = (akeys l).map EntityId.index := by
  unfold akeys
  rw [List.map_map]
  rfl

theorem index_nodup_on (ents : List EntityId) (hIdx : (ents.map EntityId.index).Nodup)
    (l : List EntityId) (hsub : ∀ x ∈ l, x ∈ ents) (hn : l.Nodup) :
    (l.map EntityId.index).Nodup := by
  induction l with
  | nil => simp
  | cons x xs ih =>
    simp only [List.nodup_cons] at hn
    simp only [List.map_cons, List.nodup_cons]
    refine ⟨?_, ih (fun y hy => hsub y (List.mem_cons_of_mem x hy)) hn.2⟩
    intro hc
    rcases List.mem_map.mp hc with ⟨y, hy, hxy⟩
    have hxe : x ∈ ents := hsub x (List.mem_cons_self x xs)
    have hye : y ∈ ents := hsub y (List.mem_cons_of_mem x hy)
    have heq : y = x := List.inj_on_of_nodup_map hIdx hye hxe hxy
    exact hn.1 (heq ▸ hy)

theorem sortOn_pairwise_lt {α : Type} (key : α → Nat) (l : List α)
    (hn : (l.map key).Nodup) :
    (sortOn key l).Pairwise (fun a b => key a < key b) :=
  pairwise_lt_of_le_nodup key _ (sortOn_sorted key l)
    (((sortOn_perm key l).map key).nodup_iff.mpr hn)

/-- C1: registry-wide round-trip.  Encoding a full snapshot through
`SerializeRegistry` (entities array, `MaterializationStatus` storage,
per-factory storages), clearing the registry and decoding the same
bytes yields a registry whose entity id set (index and generation) and
per-type component data are permutations of the pre-encode state, and
the entities array and every per-type (entity, data) array are written
in strictly entity-index-ascending order on both the first and the
second encode. -/
theorem c1_registry_round_trip (s : MState)
    (hIdx : (s.reg.entities.map EntityId.index).Nodup)
    (hStatN : (akeys s.reg.status).Nodup)
    (hStatV : ∀ p ∈ s.reg.status, p.1 ∈ s.reg.entities)
    (hCompN : ∀ nm, (akeys (s.reg.storageOf nm)).Nodup)
    (hCompV : ∀ nm, ∀ p ∈ s.reg.storageOf nm, p.1 ∈ s.reg.entities)
    (hTagN : (akeys s.reg.tag).Nodup)
    (hTagV : ∀ p ∈ s.reg.tag, p.1 ∈ s.reg.entities)
    (hTagH : ∀ p ∈ s.reg.tag, ∃ h, handleOf s p.2 = some h ∧ h.ent = some p.1)
    (hNames : (s.factories.map Factory.name).Nodup) :
    ∃ s2, decodeRegistryM s (encodeRegistry s) = some s2 ∧
      s2.reg.entities.Perm s.reg.entities ∧
      s2.reg.status.Perm s.reg.status ∧
      (∀ f ∈ s.factories, (s2.reg.storageOf f.name).Perm (s.reg.storageOf f.name)) ∧
      s2.factories = s.factories ∧
      (encodeRegistry s).entities.Pairwise (fun a b => a.index < b.index) ∧
      (encodeRegistry s).statusArr.Pairwise (fun a b => a.1.index < b.1.index) ∧
      (∀ st ∈ (encodeRegistry s).storages,
        st.2.2.Pairwise (fun a b => a.1.index < b.1.index)) ∧
      (encodeRegistry s2).entities.Pairwise (fun a b => a.index < b.index) ∧
      (encodeRegistry s2).statusArr.Pairwise (fun a b => a.1.index < b.1.index) ∧
      (∀ st ∈ (encodeRegistry s2).storages,
        st.2.2.Pairwise (fun a b => a.1.index < b.1.index)) := by
  have hperm_es := sortOn_perm EntityId.index s.reg.entities
  have hperm_sts := sortOn_perm (fun p => p.1.index) s.reg.status
  have hes_idx : ((sortOn EntityId.index s.reg.entities).map EntityId.index).Nodup :=
    (hperm_es.map EntityId.index).nodup_iff.mpr hIdx
  obtain ⟨hent1, htag1, hstat1, hcomp1⟩ :=
    decode_entities_fold (sortOn EntityId.index s.reg.entities) s.reg.clearAll hes_idx
      (by
        intro e he
        unfold Reg.clearAll Reg.liveIndices
        simp)
  have hmem_es : ∀ x, x ∈ s.reg.entities → x ∈ sortOn EntityId.index s.reg.entities :=
    fun x hx => hperm_es.mem_iff.mpr hx
  obtain ⟨r2, hfold2, hst2, hent2, htg2, hcm2, hnx2⟩ :=
    decode_status_fold (sortOn (fun p => p.1.index) s.reg.status)
      ((sortOn EntityId.index s.reg.entities).foldl
        (fun r2 e => (r2.createWithHint (some e)).2) s.reg.clearAll)
      (by
        intro p hp
        rw [hent1]
        simp only [Reg.clearAll, List.nil_append]
        exact hmem_es p.1 (hStatV p (hperm_sts.mem_iff.mp hp)))
  obtain ⟨r3, hfold3, hsto3, hoth3, hent3, htg3, hst3, hnx3⟩ :=
    decode_storages_fold s.factories
      ((sortFactories s.factories).map (fun f =>
        (f.name, f.version, sortOn (fun p => p.1.index) (s.reg.storageOf f.name))))
      r2
      (by
        rw [List.map_map]
        exact ((sortFactories_perm s.factories).map Factory.name).nodup_iff.mpr hNames)
      (by
        intro blk hblk
        rcases List.mem_map.mp hblk with ⟨f, hf, rfl⟩
        dsimp only
        unfold findFactory
        rw [List.find?_isSome]
        exact ⟨f, (sortFactories_perm s.factories).mem_iff.mp hf, by simp⟩)
      (by
        intro blk hblk p hp
        rcases List.mem_map.mp hblk with ⟨f, hf, rfl⟩
        dsimp only at hp
        rw [hent2, hent1]
        simp only [Reg.clearAll, List.nil_append]
        exact hmem_es p.1
          (hCompV f.name p ((sortOn_perm (fun p => p.1.index) _).mem_iff.mp hp)))
  obtain ⟨r4, hfold4, htag4, hent4, hstat4, hcomp4⟩ :=
    retag_fold s s.reg.tag r3
      (by
        intro p hp
        rw [hent3, hent2, hent1]
        simp only [Reg.clearAll, List.nil_append]
        exact hmem_es p.1 (hTagV p hp))
      hTagN hTagH
      (by
        intro p hp
        rw [htg3, htg2, htag1]
        simp [Reg.clearAll, akeys])
  have hr4status : r4.status = sortOn (fun p => p.1.index) s.reg.status := by
    rw [hstat4, hst3, hst2, hstat1]
    simp only [Reg.clearAll]
    rw [aset_fold_from _ [] ((hperm_sts.map Prod.fst).nodup_iff.mpr hStatN) (by simp [akeys])]
    simp
  have hr4comps : ∀ f ∈ s.factories,
      r4.storageOf f.name = sortOn (fun p => p.1.index) (s.reg.storageOf f.name) := by
    intro f hf
    have hfs : f ∈ sortFactories s.factories := (sortFactories_perm s.factories).mem_iff.mpr hf
    have hblk := hsto3 _ (List.mem_map.mpr ⟨f, hfs, rfl⟩)
    dsimp only at hblk
    rw [storageOf_congr r4 r3 f.name hcomp4, hblk]
    rw [storageOf_nil r2 f.name (by rw [hcm2, hcomp1]; rfl)]
    rw [asetN_fold_from _ []
      (((sortOn_perm (fun p => p.1.index) _).map Prod.fst).nodup_iff.mpr (hCompN f.name))
      (by simp [akeys])]
    simp
  refine ⟨{ s with reg := r4 }, ?_, ?_, ?_, ?_, rfl, ?_, ?_, ?_, ?_, ?_, ?_⟩
  · unfold decodeRegistryM
    dsimp only [encodeRegistry]
    rw [hfold2]
    simp only [Option.bind_eq_bind, Option.some_bind]
    rw [hfold3]
    simp only [Option.some_bind]
    rw [hfold4]
    simp only [Option.some_bind]
    rfl
  · show r4.entities.Perm s.reg.entities
    rw [hent4, hent3, hent2, hent1]
    simp only [Reg.clearAll, List.nil_append]
    exact hperm_es
  · show r4.status.Perm s.reg.status
    rw [hr4status]
    exact hperm_sts
  · intro f hf
    show (r4.storageOf f.name).Perm (s.reg.storageOf f.name)
    rw [hr4comps f hf]
    exact sortOn_perm _ _
  · exact sortOn_pairwise_lt EntityId.index s.reg.entities hIdx
  · refine sortOn_pairwise_lt (fun p => p.1.index) s.reg.status ?_
    rw [pair_key_index]
    exact index_nodup_on s.reg.entities hIdx (akeys s.reg.status)
      (fun x hx => by
        rcases List.mem_map.mp hx with ⟨p, hp, rfl⟩
        exact hStatV p hp)
      hStatN
  · intro st hst
    rcases List.mem_map.mp hst with ⟨f, hf, rfl⟩
    dsimp only
    refine sortOn_pairwise_lt (fun p => p.1.index) (s.reg.storageOf f.name) ?_
    rw [pair_key_index]
    exact index_nodup_on s.reg.entities hIdx (akeys (s.reg.storageOf f.name))
      (fun x hx => by
        rcases List.mem_map.mp hx with ⟨p, hp, rfl⟩
        exact hCompV f.name p hp)
      (hCompN f.name)
  · show (sortOn EntityId.index r4.entities).Pairwise (fun a b => a.index < b.index)
    refine sortOn_pairwise_lt EntityId.index r4.entities ?_
    have hpe : r4.entities.Perm s.reg.entities := by
      rw [hent4, hent3, hent2, hent1]
      simp only [Reg.clearAll, List.nil_append]
      exact hperm_es
    exact (hpe.map EntityId.index).nodup_iff.mpr hIdx
  · show (sortOn (fun p => p.1.index) r4.status).Pairwise (fun a b => a.1.index < b.1.index)
    refine sortOn_pairwise_lt (fun p => p.1.index) r4.status ?_
    have hps : r4.status.Perm s.reg.status := by
      rw [hr4status]
      exact hperm_sts
    rw [pair_key_index]
    refine ((hps.map Prod.fst).map EntityId.index).nodup_iff.mpr ?_
    exact index_nodup_on s.reg.entities hIdx (akeys s.reg.status)
      (fun x hx => by
        rcases List.mem_map.mp hx with ⟨p, hp, rfl⟩
        exact hStatV p hp)
      hStatN
  · intro st hst
    rcases List.mem_map.mp hst with ⟨f, hf, rfl⟩
    dsimp only
    refine sortOn_pairwise_lt (fun p => p.1.index) (r4.storageOf f.name) ?_
    have hf2 : f ∈ s.factories := (sortFactories_perm s.factories).mem_iff.mp hf
    rw [hr4comps f hf2, pair_key_index]
    refine (((sortOn_perm (fun p => p.1.index) (s.reg.storageOf f.name)).map
      Prod.fst).map EntityId.index).nodup_iff.mpr ?_
    exact index_nodup_on s.reg.entities hIdx (akeys (s.reg.storageOf f.name))
      (fun x hx => by
        rcases List.mem_map.mp hx with ⟨p, hp, rfl⟩
        exact hCompV f.name p hp)
      (hCompN f.name)

def c1state : MState :=
  { baseState with
      reg := { entities := [⟨1, 0⟩, ⟨0, 2⟩], nextIndex := 2
               tag := [(⟨1, 0⟩, 7)]
               status := [(⟨1, 0⟩, true), (⟨0, 2⟩, false)]
               comps := [("Health", [(⟨1, 0⟩, 5)])] }
      factories := [⟨"Health", 1, []⟩]
      handles := [⟨7, some ⟨1, 0⟩⟩]
      nextHid := 8 }

theorem c1_registry_round_trip_witness :
    ((c1state.reg.entities.map EntityId.index).Nodup ∧
      (akeys c1state.reg.status).Nodup ∧
      (∀ p ∈ c1state.reg.status, p.1 ∈ c1state.reg.entities) ∧
      (akeys c1state.reg.tag).Nodup ∧
      (∀ p ∈ c1state.reg.tag, p.1 ∈ c1state.reg.entities) ∧
      (c1state.factories.map Factory.name).Nodup) ∧
    (∃ s2, decodeRegistryM c1state (encodeRegistry c1state) = some s2 ∧
      s2.reg.entities.Perm c1state.reg.entities ∧
      s2.reg.status.Perm c1state.reg.status ∧
      (∀ f ∈ c1state.factories, (s2.reg.storageOf f.name).Perm (c1state.reg.storageOf f.name)) ∧
      s2.factories = c1state.factories ∧
      (encodeRegistry c1state).entities.Pairwise (fun a b => a.index < b.index) ∧
      (encodeRegistry c1state).statusArr.Pairwise (fun a b => a.1.index < b.1.index) ∧
      (∀ st ∈ (encodeRegistry c1state).storages,
        st.2.2.Pairwise (fun a b => a.1.index < b.1.index)) ∧
      (encodeRegistry s2).entities.Pairwise (fun a b => a.index < b.index) ∧
      (encodeRegistry s2).statusArr.Pairwise (fun a b => a.1.index < b.1.index) ∧
      (∀ st ∈ (encodeRegistry s2).storages,
        st.2.2.Pairwise (fun a b => a.1.index < b.1.index))) := by
  have hKn : ∀ nm, (akeys (c1state.reg.storageOf nm)).Nodup := by
    intro nm
    show (akeys ((alookup c1state.reg.comps nm).getD [])).Nodup
    cases hl : alookup c1state.reg.comps nm with
    | none => exact List.nodup_nil
    | some st =>
      have heq := List.mem_singleton.mp (alookup_mem hl)
      have hst : st = [((⟨1, 0⟩ : EntityId), 5)] := congrArg Prod.snd heq
      rw [hst]
      decide
  have hKv : ∀ nm, ∀ p ∈ c1state.reg.storageOf nm, p.1 ∈ c1state.reg.entities := by
    intro nm p
    show p ∈ (alookup c1state.reg.comps nm).getD [] → p.1 ∈ c1state.reg.entities
    cases hl : alookup c1state.reg.comps nm with
    | none =>
      intro hp
      simp at hp
    | some st =>
      intro hp
      have heq := List.mem_singleton.mp (alookup_mem hl)
      have hst : st = [((⟨1, 0⟩ : EntityId), 5)] := congrArg Prod.snd heq
      rw [hst] at hp
      have hp2 := List.mem_singleton.mp hp
      rw [hp2]
      decide
  have hTH : ∀ p ∈ c1state.reg.tag, ∃ h, handleOf c1state p.2 = some h ∧ h.ent = some p.1 := by
    intro p hp
    have hp2 := List.mem_singleton.mp hp
    subst hp2
    exact ⟨⟨7, some ⟨1, 0⟩⟩, by decide, rfl⟩
  exact ⟨⟨by decide, by decide, by decide, by decide, by decide, by decide⟩,
    c1_registry_round_trip c1state (by decide) (by decide) (by decide) hKn hKv
      (by decide) (by decide) hTH (by decide)⟩

/-! Invariants for the materialization state machine (C2). -/

/-- Core well-formedness of a manager state: registry shape, handle
identity, and the two-way correspondence between `EntityMaterialized`
tags and live handles. -/
structure InvC (s : MState) : Prop where
  entIdx : (s.reg.entities.map EntityId.index).Nodup
  entBound : ∀ e ∈ s.reg.entities, e.index < s.reg.nextIndex
  tagN : (akeys s.reg.tag).Nodup
  tagV : ∀ p ∈ s.reg.tag, p.1 ∈ s.reg.entities
  statusN : (akeys s.reg.status).Nodup
  statusV : ∀ p ∈ s.reg.status, p.1 ∈ s.reg.entities
  compN : ∀ nm, (akeys (s.reg.storageOf nm)).Nodup
  compV : ∀ nm, ∀ p ∈ s.reg.storageOf nm, p.1 ∈ s.reg.entities
  hidsNodup : (s.handles.map Handle.hid).Nodup
  hidsBound : ∀ h ∈ s.handles, h.hid < s.nextHid
  tagToHandle : ∀ p ∈ s.reg.tag, ∃ h ∈ s.handles, h.hid = p.2 ∧ h.ent = some p.1
  handleToTag : ∀ h ∈ s.handles, ∀ e, h.ent = some e → e ∈ s.reg.entities →
    alookup s.reg.tag e = some h.hid
  claimsNodup : ∀ h1 ∈ s.handles, ∀ h2 ∈ s.handles, ∀ e,
    h1.ent = some e → h2.ent = some e → h1 = h2
  claimsBound : ∀ h ∈ s.handles, ∀ e, h.ent = some e → e.index < s.reg.nextIndex

/-- Full invariant: core well-formedness plus the pending-additions
queue facts (queued weak references are alive, tagged handles are not
queued). -/
structure MInv (s : MState) : Prop where
  core : InvC s
  pendingAlive : ∀ hid ∈ s.pendingAdds, ∃ h ∈ s.handles, h.hid = hid
  tagNotPending : ∀ p ∈ s.reg.tag, p.2 ∉ s.pendingAdds

/-- The claim's triple equivalence, for every valid entity:
`IsEntityMaterialized` agrees with tag presence, which agrees with the
existence of a live handle claiming the entity. -/
def TripleEq (s : MState) : Prop :=
  ∀ e, e ∈ s.reg.entities →
    ((isEntityMaterialized s e = true) ↔ (alookup s.reg.tag e).isSome = true) ∧
    ((alookup s.reg.tag e).isSome = true ↔ ∃ h ∈ s.handles, h.ent = some e)

theorem handleOf_mem {s : MState} {hid : Nat} {h : Handle}
    (hh : handleOf s hid = some h) : h ∈ s.handles ∧ h.hid = hid := by
  refine ⟨List.mem_of_find?_eq_some hh, ?_⟩
  have := List.find?_some hh
  simpa using this

theorem handleOf_isSome_of_mem {s : MState} {h : Handle}
    (hm : h ∈ s.handles) : (handleOf s h.hid).isSome = true := by
  unfold handleOf
  rw [List.find?_isSome]
  exact ⟨h, hm, by simp⟩

theorem handle_unique {s : MState} (hn : (s.handles.map Handle.hid).Nodup)
    {h1 h2 : Handle} (m1 : h1 ∈ s.handles) (m2 : h2 ∈ s.handles)
    (he : h1.hid = h2.hid) : h1 = h2 :=
  List.inj_on_of_nodup_map hn m1 m2 he

theorem invC_tripleEq (s : MState) (hI : InvC s) : TripleEq s := by
  intro e he
  refine ⟨Iff.rfl, ?_, ?_⟩
  · intro ht
    cases hl : alookup s.reg.tag e with
    | none => rw [hl] at ht; cases ht
    | some hid =>
      obtain ⟨h, hm, _, hent⟩ := hI.tagToHandle (e, hid) (alookup_mem hl)
      exact ⟨h, hm, hent⟩
  · rintro ⟨h, hm, hent⟩
    rw [hI.handleToTag h hm e hent he]
    rfl

/-- The concrete state for the C2 counterexample: a live handle (here
freshly observed, still pending) claims the stale id (0,0), the
registry is empty, and the snapshot being decoded contains exactly the
entity (0,0). -/
def c2state : MState :=
  { baseState with
      reg := { entities := [], nextIndex := 1, tag := [], status := [], comps := [] }
      handles := [⟨5, some ⟨0, 0⟩⟩]
      nextHid := 6
      pendingAdds := [5] }

def c2snap : Snapshot := { entities := [⟨0, 0⟩], statusArr := [], storages := [] }

/-- C2, counterexample: the pre-state satisfies the triple equivalence
(no valid entities), yet decoding a registry snapshot (`SetDataAttr`,
the serialization operation) re-creates the id the handle claims, so
afterwards the entity (0,0) is valid and untagged while a live handle
claims it — the handle-implies-materialized direction fails, so
serialization does not preserve the equivalence. -/
theorem c2_counterexample :
    TripleEq c2state ∧
    ∃ s2, setDataAttr c2state c2snap = some s2 ∧
      (⟨0, 0⟩ : EntityId) ∈ s2.reg.entities ∧
      isEntityMaterialized s2 ⟨0, 0⟩ = false ∧
      (∃ h ∈ s2.handles, h.ent = some ⟨0, 0⟩) ∧
      ¬ TripleEq s2 := by
  constructor
  · intro e he
    cases he
  · refine ⟨{ c2state with reg := { entities := [⟨0, 0⟩], nextIndex := 1, tag := [], status := [], comps := [] }, registryDirty := true }, by decide, by decide, by decide, ?_, ?_⟩
    · exact ⟨⟨5, some ⟨0, 0⟩⟩, by decide, rfl⟩
    · intro hT
      have := ((hT ⟨0, 0⟩ (by decide)).2).mpr ⟨⟨5, some ⟨0, 0⟩⟩, by decide, rfl⟩
      simp [alookup] at this

theorem hids_append_nodup (l : List Handle) (n : Nat) (oe : Option EntityId)
    (hn : (l.map Handle.hid).Nodup) (hb : ∀ h ∈ l, h.hid < n) :
    ((l ++ [(⟨n, oe⟩ : Handle)]).map Handle.hid).Nodup := by
  rw [List.map_append]
  simp only [List.map_cons, List.map_nil]
  rw [List.nodup_append]
  refine ⟨hn, List.nodup_singleton n, ?_⟩
  intro x hx hy
  rcases List.mem_map.mp hx with ⟨h, hh, rfl⟩
  simp only [List.mem_singleton] at hy
  exact absurd hy (Nat.ne_of_lt (hb h hh))

theorem materializeEntity_minv (s : MState) (e : EntityId) (s2 : MState) (hid : Nat)
    (hI : MInv s) (hm : materializeEntity s e = some (s2, hid)) : MInv s2 := by
  unfold materializeEntity at hm
  cases href : entityToReference s (some e) with
  | some hid0 =>
    rw [href] at hm
    cases hm
    exact hI
  | none =>
    rw [href] at hm
    simp only [Option.bind_eq_bind, Option.bind_eq_some] at hm
    obtain ⟨r1, hr1, hm⟩ := hm
    obtain ⟨r2, hr2, hm⟩ := hm
    cases hm
    unfold Reg.emplaceOrReplaceTag at hr1
    by_cases hv : s.reg.validIn e
    case neg =>
      rw [if_neg hv] at hr1
      cases hr1
    rw [if_pos hv] at hr1
    cases hr1
    have hv2 : ({ s.reg with tag := aset s.reg.tag e s.nextHid } : Reg).validIn e := hv
    unfold Reg.emplaceOrReplaceStatus at hr2
    rw [if_pos hv2] at hr2
    cases hr2
    have htagnone : alookup s.reg.tag e = none := by
      cases hl : alookup s.reg.tag e with
      | none => rfl
      | some hidD =>
        exfalso
        obtain ⟨hD, hmD, hhidD, hentD⟩ := hI.core.tagToHandle (e, hidD) (alookup_mem hl)
        unfold entityToReference at href
        dsimp only at href
        rw [hl] at href
        dsimp only at href
        have hsome : (handleOf s hidD).isSome = true := by
          have := handleOf_isSome_of_mem hmD
          rw [hhidD] at this
          exact this
        rw [if_pos hsome] at href
        cases href
    refine ⟨⟨hI.core.entIdx, hI.core.entBound, ?_, ?_, ?_, ?_, hI.core.compN, hI.core.compV,
      ?_, ?_, ?_, ?_, ?_, ?_⟩, ?_, ?_⟩
    · exact akeys_aset_nodup _ _ _ hI.core.tagN
    · intro p hp
      rcases mem_aset hp with hp1 | hp1
      · rw [hp1]
        exact hv
      · exact hI.core.tagV p hp1
    · exact akeys_aset_nodup _ _ _ hI.core.statusN
    · intro p hp
      rcases mem_aset hp with hp1 | hp1
      · rw [hp1]
        exact hv
      · exact hI.core.statusV p hp1
    · exact hids_append_nodup s.handles s.nextHid (some e) hI.core.hidsNodup hI.core.hidsBound
    · intro h hm2
      rcases List.mem_append.mp hm2 with hm3 | hm3
      · exact Nat.lt_succ_of_lt (hI.core.hidsBound h hm3)
      · rw [List.mem_singleton.mp hm3]
        exact Nat.lt_succ_self _
    · intro p hp
      rcases mem_aset hp with hp1 | hp1
      · refine ⟨⟨s.nextHid, some e⟩, List.mem_append_right _ (List.mem_singleton.mpr rfl), ?_, ?_⟩
        · rw [hp1]
        · rw [hp1]
      · obtain ⟨h, hm3, hh3, he3⟩ := hI.core.tagToHandle p hp1
        exact ⟨h, List.mem_append_left _ hm3, hh3, he3⟩
    · intro h hm2 e' hent' hval'
      rcases List.mem_append.mp hm2 with hm3 | hm3
      · by_cases hee : e' = e
        · subst hee
          rw [hI.core.handleToTag h hm3 e' hent' hval'] at htagnone
          cases htagnone
        · rw [alookup_aset_ne _ _ _ _ hee]
          exact hI.core.handleToTag h hm3 e' hent' hval'
      · rw [List.mem_singleton.mp hm3] at hent' ⊢
        cases hent'
        rw [alookup_aset_self]
    · intro h1 hm1 h2 hm2 e' he1 he2
      rcases List.mem_append.mp hm1 with hm1a | hm1a <;>
        rcases List.mem_append.mp hm2 with hm2a | hm2a
      · exact hI.core.claimsNodup h1 hm1a h2 hm2a e' he1 he2
      · exfalso
        rw [List.mem_singleton.mp hm2a] at he2
        cases he2
        rw [hI.core.handleToTag h1 hm1a e he1 hv] at htagnone
        cases htagnone
      · exfalso
        rw [List.mem_singleton.mp hm1a] at he1
        cases he1
        rw [hI.core.handleToTag h2 hm2a e he2 hv] at htagnone
        cases htagnone
      · rw [List.mem_singleton.mp hm1a, List.mem_singleton.mp hm2a]
    · intro h hm2 e' hent'
      rcases List.mem_append.mp hm2 with hm3 | hm3
      · exact hI.core.claimsBound h hm3 e' hent'
      · rw [List.mem_singleton.mp hm3] at hent'
        cases hent'
        exact hI.core.entBound e hv
    · intro hid2 hp
      obtain ⟨h, hm3, hh3⟩ := hI.pendingAlive hid2 hp
      exact ⟨h, List.mem_append_left _ hm3, hh3⟩
    · intro p hp
      rcases mem_aset hp with hp1 | hp1
      · intro hcon
        obtain ⟨h, hm3, hh3⟩ := hI.pendingAlive p.2 hcon
        have := hI.core.hidsBound h hm3
        rw [hh3, hp1] at this
        exact lt_irrefl _ this
      · exact hI.tagNotPending p hp1

theorem mem_aremove_key_ne {κ α : Type} [DecidableEq κ] {l : List (κ × α)} {k : κ}
    {p : κ × α} (hn : (akeys l).Nodup) (h : p ∈ aremove l k) : p.1 ≠ k := by
  intro hpe
  have hmem : k ∈ akeys (aremove l k) := List.mem_map.mpr ⟨p, h, hpe⟩
  have hnone := alookup_aremove_self l k hn
  rw [alookup_eq_none_iff] at hnone
  exact hnone hmem

theorem dematerializeEntity_minv (s : MState) (e : EntityId) (s2 : MState)
    (hI : MInv s) (hm : dematerializeEntity s e = some s2) : MInv s2 := by
  unfold dematerializeEntity at hm
  by_cases hv : s.reg.validIn e
  case neg =>
    rw [if_neg hv] at hm
    cases hm
  rw [if_pos hv] at hm
  cases hl : alookup s.reg.tag e with
  | none =>
    rw [hl] at hm
    dsimp only at hm
    cases hm
    exact hI
  | some hid =>
    rw [hl] at hm
    dsimp only at hm
    simp only [Option.bind_eq_bind, Option.bind_eq_some] at hm
    obtain ⟨hD, hD0, hm⟩ := hm
    obtain ⟨r1, hr1, hm⟩ := hm
    obtain ⟨r2, hr2, hm⟩ := hm
    cases hm
    unfold Reg.removeTag at hr1
    rw [if_pos hv] at hr1
    cases hr1
    have hv2 : ({ s.reg with tag := aremove s.reg.tag e } : Reg).validIn e := hv
    unfold Reg.emplaceOrReplaceStatus at hr2
    rw [if_pos hv2] at hr2
    cases hr2
    have htag : (e, hid) ∈ s.reg.tag := alookup_mem hl
    refine ⟨⟨hI.core.entIdx, hI.core.entBound, ?_, ?_, ?_, ?_, hI.core.compN, hI.core.compV,
      ?_, ?_, ?_, ?_, ?_, ?_⟩, ?_, ?_⟩
    · exact akeys_aremove_nodup _ _ hI.core.tagN
    · intro p hp
      exact hI.core.tagV p (mem_aremove hp)
    · exact akeys_aset_nodup _ _ _ hI.core.statusN
    · intro p hp
      rcases mem_aset hp with hp1 | hp1
      · rw [hp1]
        exact hv
      · exact hI.core.statusV p hp1
    · exact (hI.core.hidsNodup).sublist (List.Sublist.map Handle.hid (List.filter_sublist _))
    · intro h hm2
      exact hI.core.hidsBound h (List.mem_of_mem_filter hm2)
    · intro p hp
      have hpne : p.1 ≠ e := mem_aremove_key_ne hI.core.tagN hp
      obtain ⟨h, hm3, hh3, he3⟩ := hI.core.tagToHandle p (mem_aremove hp)
      refine ⟨h, List.mem_filter.mpr ⟨hm3, ?_⟩, hh3, he3⟩
      have hhne : h.hid ≠ hid := by
        intro hcon
        obtain ⟨h2, hm4, hh4, he4⟩ := hI.core.tagToHandle (e, hid) htag
        have heq : h = h2 := handle_unique hI.core.hidsNodup hm3 hm4 (by rw [hcon, hh4])
        rw [heq, he4] at he3
        exact hpne (Option.some.inj he3).symm
      simp [hhne]
    · intro h hm2 e' hent' hval'
      have hmf := List.mem_filter.mp hm2
      have hhne : h.hid ≠ hid := by
        have := hmf.2
        simpa using this
      by_cases hee : e' = e
      · exfalso
        subst hee
        have := hI.core.handleToTag h hmf.1 e' hent' hval'
        rw [hl] at this
        exact hhne (Option.some.inj this).symm
      · rw [alookup_aremove_ne _ _ _ hI.core.tagN hee]
        exact hI.core.handleToTag h hmf.1 e' hent' hval'
    · intro h1 hm1 h2 hm2 e' he1 he2
      exact hI.core.claimsNodup h1 (List.mem_of_mem_filter hm1) h2
        (List.mem_of_mem_filter hm2) e' he1 he2
    · intro h hm2 e' hent'
      exact hI.core.claimsBound h (List.mem_of_mem_filter hm2) e' hent'
    · intro hid2 hp
      obtain ⟨h, hm3, hh3⟩ := hI.pendingAlive hid2 hp
      refine ⟨h, List.mem_filter.mpr ⟨hm3, ?_⟩, hh3⟩
      have hhne : h.hid ≠ hid := by
        intro hcon
        have := hI.tagNotPending (e, hid) htag
        rw [← hcon, hh3] at this
        exact this hp
      simp [hhne]
    · intro p hp
      exact hI.tagNotPending p (mem_aremove hp)

theorem minv_comps_update (s : MState) (name : String) (st : List (EntityId × Nat))
    (hI : MInv s) (hN : (akeys st).Nodup) (hV : ∀ p ∈ st, p.1 ∈ s.reg.entities) :
    MInv { s with reg := { s.reg with comps := aset s.reg.comps name st } } := by
  refine ⟨⟨hI.core.entIdx, hI.core.entBound, hI.core.tagN, hI.core.tagV, hI.core.statusN,
    hI.core.statusV, ?_, ?_, hI.core.hidsNodup, hI.core.hidsBound, hI.core.tagToHandle,
    hI.core.handleToTag, hI.core.claimsNodup, hI.core.claimsBound⟩,
    hI.pendingAlive, hI.tagNotPending⟩
  · intro nm
    by_cases hnm : nm = name
    · subst hnm
      rw [storageOf_update_self]
      exact hN
    · rw [storageOf_update_other _ _ _ _ hnm]
      exact hI.core.compN nm
  · intro nm p hp
    by_cases hnm : nm = name
    · subst hnm
      rw [storageOf_update_self] at hp
      exact hV p hp
    · rw [storageOf_update_other _ _ _ _ hnm] at hp
      exact hI.core.compV nm p hp

theorem foldlM_inv {α β : Type} (P : β → Prop) (f : β → α → Option β) (l : List α)
    (hstep : ∀ x c c2, P c → f c x = some c2 → P c2) :
    ∀ b b2, P b → l.foldlM f b = some b2 → P b2 := by
  induction l with
  | nil =>
    intro b b2 hb h
    simp only [List.foldlM_nil] at h
    cases h
    exact hb
  | cons x xs ih =>
    intro b b2 hb h
    rw [List.foldlM_cons] at h
    simp only [Option.bind_eq_bind, Option.bind_eq_some] at h
    obtain ⟨c, hc, h2⟩ := h
    exact ih c b2 (hstep x b c hb hc) h2

theorem applyToggle_minv (s : MState) (p : EntityId × Bool) (s2 : MState)
    (hI : MInv s) (hm : applyToggle s p = some s2) : MInv s2 := by
  unfold applyToggle at hm
  by_cases hb : p.2
  · rw [if_pos hb] at hm
    cases hmat : materializeEntity s p.1 with
    | none =>
      rw [hmat] at hm
      cases hm
    | some q =>
      rw [hmat] at hm
      cases hm
      exact materializeEntity_minv s p.1 q.1 q.2 hI hmat
  · rw [if_neg hb] at hm
    exact dematerializeEntity_minv s p.1 s2 hI hm

theorem applyCreate_minv (s : MState) (p : EntityId × String) (s2 : MState)
    (hI : MInv s) (hm : applyCreate s p = some s2) : MInv s2 := by
  unfold applyCreate at hm
  by_cases hc : ¬ s.reg.validIn p.1 ∨ s.reg.hasComp p.2 p.1
  · rw [if_pos hc] at hm
    cases hm
    exact hI
  · rw [if_neg hc] at hm
    push_neg at hc
    unfold Reg.emplaceComp at hm
    rw [if_pos ⟨hc.1, by simpa using hc.2⟩] at hm
    cases hm
    refine minv_comps_update s p.2 _ hI ?_ ?_
    · rw [akeys]
      rw [List.map_append]
      rw [List.nodup_append]
      refine ⟨hI.core.compN p.2, List.nodup_singleton _, ?_⟩
      intro x hx hy
      simp only [List.map_cons, List.map_nil, List.mem_singleton] at hy
      subst hy
      exact hasComp_false_notin s.reg p.2 p.1 (by simpa using hc.2) hx
    · intro q hq
      rcases List.mem_append.mp hq with hq1 | hq1
      · exact hI.core.compV p.2 q hq1
      · rw [List.mem_singleton.mp hq1]
        exact hc.1

theorem applyDestroy_minv (s : MState) (p : EntityId × String) (s2 : MState)
    (hI : MInv s) (hm : applyDestroy s p = some s2) : MInv s2 := by
  unfold applyDestroy at hm
  by_cases hc : ¬ s.reg.validIn p.1 ∨ ¬ s.reg.hasComp p.2 p.1
  · rw [if_pos hc] at hm
    cases hm
    exact hI
  · rw [if_neg hc] at hm
    push_neg at hc
    unfold Reg.removeComp at hm
    rw [if_pos hc.1] at hm
    cases hm
    refine minv_comps_update s p.2 _ hI ?_ ?_
    · exact akeys_aremove_nodup _ _ (hI.core.compN p.2)
    · intro q hq
      exact hI.core.compV p.2 q (mem_aremove hq)

/-- The registry facts carried through the staged-edit fold: everything
except the component storages is untouched, and the storages stay
well-formed over the initial entity set. -/
def RegLike (r0 r : Reg) : Prop :=
  r.entities = r0.entities ∧ r.nextIndex = r0.nextIndex ∧ r.tag = r0.tag ∧
  r.status = r0.status ∧ (∀ nm, (akeys (r.storageOf nm)).Nodup) ∧
  (∀ nm, ∀ p ∈ r.storageOf nm, p.1 ∈ r.entities)

theorem replace_step_reglike (r0 : Reg) (name : String) (x : EntityId × Nat) (r r2 : Reg)
    (hQ : RegLike r0 r)
    (h : (if ¬ r.validIn x.1 then some r else r.replaceComp name x.1 x.2) = some r2) :
    RegLike r0 r2 := by
  by_cases hv : r.validIn x.1
  · rw [if_neg (not_not_intro hv)] at h
    unfold Reg.replaceComp at h
    by_cases hc : r.validIn x.1 ∧ r.hasComp name x.1 = true
    · rw [if_pos hc] at h
      cases h
      obtain ⟨e1, e2, e3, e4, e5, e6⟩ := hQ
      refine ⟨e1, e2, e3, e4, ?_, ?_⟩
      · intro nm
        by_cases hnm : nm = name
        · subst hnm
          rw [storageOf_update_self]
          exact akeys_aset_nodup _ _ _ (e5 nm)
        · rw [storageOf_update_other _ _ _ _ hnm]
          exact e5 nm
      · intro nm p hp
        by_cases hnm : nm = name
        · subst hnm
          rw [storageOf_update_self] at hp
          rcases mem_aset hp with hp1 | hp1
          · rw [hp1]
            exact hc.1
          · exact e6 nm p hp1
        · rw [storageOf_update_other _ _ _ _ hnm] at hp
          exact e6 nm p hp
    · rw [if_neg hc] at h
      cases h
  · rw [if_pos hv] at h
    cases h
    exact hQ

theorem minv_reg_swap (s : MState) (r : Reg) (facs : List Factory) (hI : MInv s)
    (h1 : r.entities = s.reg.entities) (h2 : r.nextIndex = s.reg.nextIndex)
    (h3 : r.tag = s.reg.tag) (h4 : r.status = s.reg.status)
    (h5 : ∀ nm, (akeys (r.storageOf nm)).Nodup)
    (h6 : ∀ nm, ∀ p ∈ r.storageOf nm, p.1 ∈ r.entities) :
    MInv { s with reg := r, factories := facs } := by
  refine ⟨⟨?_, ?_, ?_, ?_, ?_, ?_, h5, h6, hI.core.hidsNodup, ?_, ?_, ?_,
    hI.core.claimsNodup, ?_⟩, hI.pendingAlive, ?_⟩
  · show (r.entities.map EntityId.index).Nodup
    rw [h1]
    exact hI.core.entIdx
  · show ∀ e ∈ r.entities, e.index < r.nextIndex
    rw [h1, h2]
    exact hI.core.entBound
  · show (akeys r.tag).Nodup
    rw [h3]
    exact hI.core.tagN
  · show ∀ p ∈ r.tag, p.1 ∈ r.entities
    rw [h3, h1]
    exact hI.core.tagV
  · show (akeys r.status).Nodup
    rw [h4]
    exact hI.core.statusN
  · show ∀ p ∈ r.status, p.1 ∈ r.entities
    rw [h4, h1]
    exact hI.core.statusV
  · exact hI.core.hidsBound
  · show ∀ p ∈ r.tag, ∃ h ∈ s.handles, h.hid = p.2 ∧ h.ent = some p.1
    rw [h3]
    exact hI.core.tagToHandle
  · show ∀ h ∈ s.handles, ∀ e, h.ent = some e → e ∈ r.entities → alookup r.tag e = some h.hid
    rw [h3, h1]
    exact hI.core.handleToTag
  · show ∀ h ∈ s.handles, ∀ e, h.ent = some e → e.index < r.nextIndex
    rw [h2]
    exact hI.core.claimsBound
  · show ∀ p ∈ r.tag, p.2 ∉ s.pendingAdds
    rw [h3]
    exact hI.tagNotPending

theorem commitFactoryEdits_minv (s : MState) (name : String) (s2 : MState)
    (hI : MInv s) (hm : commitFactoryEdits s name = some s2) : MInv s2 := by
  unfold commitFactoryEdits at hm
  cases hf : findFactory s.factories name with
  | none =>
    rw [hf] at hm
    cases hm
    exact hI
  | some f =>
    rw [hf] at hm
    dsimp only at hm
    simp only [Option.bind_eq_bind, Option.bind_eq_some] at hm
    obtain ⟨r, hr, hm⟩ := hm
    cases hm
    have hQ : RegLike s.reg r :=
      foldlM_inv (RegLike s.reg) _ f.pendingEdits
        (fun x c c2 hcQ hfx => replace_step_reglike s.reg name x c c2 hcQ hfx)
        s.reg r ⟨rfl, rfl, rfl, rfl, hI.core.compN, hI.core.compV⟩ hr
    exact minv_reg_swap s r _ hI hQ.1 hQ.2.1 hQ.2.2.1 hQ.2.2.2.1 hQ.2.2.2.2.1 hQ.2.2.2.2.2

theorem minv_untouched (s s2 : MState) (hI : MInv s) (hr : s2.reg = s.reg)
    (hh : s2.handles = s.handles) (hn : s2.nextHid = s.nextHid)
    (hp : s2.pendingAdds = s.pendingAdds) : MInv s2 := by
  refine ⟨⟨?_, ?_, ?_, ?_, ?_, ?_, ?_, ?_, ?_, ?_, ?_, ?_, ?_, ?_⟩, ?_, ?_⟩
  · rw [hr]
    exact hI.core.entIdx
  · rw [hr]
    exact hI.core.entBound
  · rw [hr]
    exact hI.core.tagN
  · rw [hr]
    exact hI.core.tagV
  · rw [hr]
    exact hI.core.statusN
  · rw [hr]
    exact hI.core.statusV
  · rw [hr]
    exact hI.core.compN
  · rw [hr]
    exact hI.core.compV
  · rw [hh]
    exact hI.core.hidsNodup
  · rw [hh, hn]
    exact hI.core.hidsBound
  · rw [hr, hh]
    exact hI.core.tagToHandle
  · rw [hr, hh]
    exact hI.core.handleToTag
  · rw [hh]
    exact hI.core.claimsNodup
  · rw [hh, hr]
    exact hI.core.claimsBound
  · rw [hh, hp]
    exact hI.pendingAlive
  · rw [hr, hp]
    exact hI.tagNotPending

theorem commitActions_minv (s s2 : MState) (hI : MInv s) (hm : commitActions s = some s2) :
    MInv s2 := by
  unfold commitActions at hm
  simp only [Option.bind_eq_bind, Option.bind_eq_some] at hm
  obtain ⟨t1, h1, hm⟩ := hm
  obtain ⟨t2, h2, hm⟩ := hm
  obtain ⟨t3, h3, hm⟩ := hm
  obtain ⟨t4, h4, hm⟩ := hm
  cases hm
  have i1 : MInv t1 :=
    foldlM_inv MInv applyToggle s.pendingMats
      (fun x c c2 hc hx => applyToggle_minv c x c2 hc hx) s t1 hI h1
  have i1b : MInv { t1 with pendingMats := [] } := minv_untouched t1 _ i1 rfl rfl rfl rfl
  have i2 : MInv t2 :=
    foldlM_inv MInv applyCreate _
      (fun x c c2 hc hx => applyCreate_minv c x c2 hc hx) _ t2 i1b h2
  have i2b : MInv { t2 with pendingCreates := [] } := minv_untouched t2 _ i2 rfl rfl rfl rfl
  have i3 : MInv t3 :=
    foldlM_inv MInv applyDestroy _
      (fun x c c2 hc hx => applyDestroy_minv c x c2 hc hx) _ t3 i2b h3
  have i3b : MInv { t3 with pendingDestroys := [] } := minv_untouched t3 _ i3 rfl rfl rfl rfl
  have i4 : MInv t4 :=
    foldlM_inv MInv commitFactoryEdits _
      (fun x c c2 hc hx => commitFactoryEdits_minv c x c2 hc hx) _ t4 i3b h4
  exact minv_untouched t4 _ i4 rfl rfl rfl rfl

theorem alookup_append_some {κ α : Type} [DecidableEq κ] (l1 l2 : List (κ × α)) (k : κ)
    (v : α) (h : alookup l1 k = some v) : alookup (l1 ++ l2) k = some v := by
  induction l1 with
  | nil => cases h
  | cons p l ih =>
    by_cases hp : p.1 = k
    · simp only [alookup, if_pos hp] at h ⊢
      exact h
    · simp only [alookup, if_neg hp] at h ⊢
      exact ih h

theorem createWithHint_extra (r : Reg) (hint : Option EntityId) (e2 : EntityId) (r2 : Reg)
    (hc : r.createWithHint hint = (e2, r2))
    (hN : ∀ e ∈ r.entities, e.index < r.nextIndex) :
    e2.index ∉ r.liveIndices ∧ r.nextIndex ≤ r2.nextIndex ∧
    (e2 = ⟨r.nextIndex, 0⟩ ∨ hint = some e2) := by
  have hfreshIdx : r.nextIndex ∉ r.liveIndices := by
    intro hmem
    unfold Reg.liveIndices at hmem
    rcases List.mem_map.mp hmem with ⟨e, he, hie⟩
    exact absurd hie (Nat.ne_of_lt (hN e he))
  cases hint with
  | none =>
    simp only [Reg.createWithHint] at hc
    injection hc with he hr
    subst he
    subst hr
    exact ⟨hfreshIdx, Nat.le_succ _, Or.inl rfl⟩
  | some h =>
    simp only [Reg.createWithHint] at hc
    by_cases hmem : h.index ∈ r.liveIndices
    · rw [if_pos hmem] at hc
      injection hc with he hr
      subst he
      subst hr
      exact ⟨hfreshIdx, Nat.le_succ _, Or.inl rfl⟩
    · rw [if_neg hmem] at hc
      injection hc with he hr
      subst he
      subst hr
      exact ⟨hmem, Nat.le_max_left _ _, Or.inr rfl⟩

theorem invc_untouched (s s2 : MState) (hI : InvC s) (hr : s2.reg = s.reg)
    (hh : s2.handles = s.handles) (hn : s2.nextHid = s.nextHid) : InvC s2 := by
  refine ⟨?_, ?_, ?_, ?_, ?_, ?_, ?_, ?_, ?_, ?_, ?_, ?_, ?_, ?_⟩
  · rw [hr]
    exact hI.entIdx
  · rw [hr]
    exact hI.entBound
  · rw [hr]
    exact hI.tagN
  · rw [hr]
    exact hI.tagV
  · rw [hr]
    exact hI.statusN
  · rw [hr]
    exact hI.statusV
  · rw [hr]
    exact hI.compN
  · rw [hr]
    exact hI.compV
  · rw [hh]
    exact hI.hidsNodup
  · rw [hh, hn]
    exact hI.hidsBound
  · rw [hr, hh]
    exact hI.tagToHandle
  · rw [hr, hh]
    exact hI.handleToTag
  · rw [hh]
    exact hI.claimsNodup
  · rw [hh, hr]
    exact hI.claimsBound

theorem update_hid (g : Handle) (hid : Nat) (oe : Option EntityId) :
    (if g.hid == hid then { g with ent := oe } else g).hid = g.hid := by
  by_cases hb : g.hid == hid
  · rw [if_pos hb]
  · rw [if_neg hb]


theorem bindNewEntity_invc (s : MState) (hid : Nat) (hint : Option EntityId) (s2 : MState)
    (hI : InvC s) (h0 : Handle) (hm0 : h0 ∈ s.handles) (hh0 : h0.hid = hid)
    (htagfree : ∀ p ∈ s.reg.tag, p.2 ≠ hid)
    (hhint : ∀ h' ∈ s.handles, ∀ e', hint = some e' → h'.ent = some e' → h' = h0)
    (hm : bindNewEntity s hid hint = some s2) : InvC s2 := by
  unfold bindNewEntity setHandleEnt at hm
  rcases hcw : s.reg.createWithHint hint with ⟨e2, r⟩
  rw [hcw] at hm
  dsimp only at hm
  simp only [Option.bind_eq_bind, Option.bind_eq_some] at hm
  obtain ⟨r2, hr2, hm⟩ := hm
  obtain ⟨r3, hr3, hm⟩ := hm
  cases hm
  obtain ⟨hent, hnotin, htag, hstat, hcomps, hN2⟩ :=
    createWithHint_spec s.reg hint e2 r hcw hI.entBound
  obtain ⟨hfresh, hmono, hor⟩ := createWithHint_extra s.reg hint e2 r hcw hI.entBound
  unfold Reg.emplaceTag at hr2
  by_cases hcnd : r.validIn e2 ∧ alookup r.tag e2 = none
  case neg =>
    rw [if_neg hcnd] at hr2
    cases hr2
  rw [if_pos hcnd] at hr2
  cases hr2
  have hv2 : ({ r with tag := r.tag ++ [(e2, hid)] } : Reg).validIn e2 := hcnd.1
  unfold Reg.emplaceOrReplaceStatus at hr3
  rw [if_pos hv2] at hr3
  cases hr3
  have he2mem : e2 ∈ r.entities := by
    rw [hent]
    exact List.mem_append_right _ (List.mem_singleton.mpr rfl)
  have hclaim_e2 : ∀ g ∈ s.handles, g.ent = some e2 → g = h0 := by
    intro g hg hge
    rcases hor with hfr | hhv
    · exfalso
      have := hI.claimsBound g hg e2 hge
      rw [hfr] at this
      exact lt_irrefl _ this
    · exact hhint g hg e2 hhv hge
  have htn : alookup (r.tag ++ [(e2, hid)]) e2 = some hid := by
    rw [alookup_append_left _ _ _ hcnd.2]
    simp [alookup]
  refine ⟨?_, hN2, ?_, ?_, ?_, ?_, ?_, ?_, ?_, ?_, ?_, ?_, ?_, ?_⟩
  · show ((r.entities.map EntityId.index)).Nodup
    rw [hent, List.map_append]
    simp only [List.map_cons, List.map_nil]
    rw [List.nodup_append]
    refine ⟨hI.entIdx, List.nodup_singleton _, ?_⟩
    intro x hx hy
    simp only [List.mem_singleton] at hy
    subst hy
    exact hfresh hx
  · show (akeys (r.tag ++ [(e2, hid)])).Nodup
    refine keys_append_single_nodup _ _ _ ?_ ?_
    · rw [htag]
      exact hI.tagN
    · rw [htag]
      intro hk
      rcases List.mem_map.mp hk with ⟨p, hp, hpe⟩
      exact hnotin (hpe ▸ hI.tagV p hp)
  · intro p hp
    rcases List.mem_append.mp hp with hp1 | hp1
    · rw [htag] at hp1
      show p.1 ∈ r.entities
      rw [hent]
      exact List.mem_append_left _ (hI.tagV p hp1)
    · rw [List.mem_singleton.mp hp1]
      exact he2mem
  · show (akeys (aset r.status e2 true)).Nodup
    refine akeys_aset_nodup _ _ _ ?_
    rw [hstat]
    exact hI.statusN
  · intro p hp
    rcases mem_aset hp with hp1 | hp1
    · rw [hp1]
      exact he2mem
    · rw [hstat] at hp1
      show p.1 ∈ r.entities
      rw [hent]
      exact List.mem_append_left _ (hI.statusV p hp1)
  · intro nm
    show (akeys ((alookup r.comps nm).getD [])).Nodup
    rw [hcomps]
    exact hI.compN nm
  · intro nm p hp
    have hp2 : p ∈ (alookup r.comps nm).getD [] := hp
    rw [hcomps] at hp2
    show p.1 ∈ r.entities
    rw [hent]
    exact List.mem_append_left _ (hI.compV nm p hp2)
  · show ((s.handles.map fun h =>
      if h.hid == hid then { h with ent := some e2 } else h).map Handle.hid).Nodup
    rw [map_hid_map_update]
    exact hI.hidsNodup
  · intro h' hm'
    rcases List.mem_map.mp hm' with ⟨g, hg, rfl⟩
    show (if g.hid == hid then { g with ent := some e2 } else g).hid < s.nextHid
    rw [update_hid]
    exact hI.hidsBound g hg
  · intro p hp
    rcases List.mem_append.mp hp with hp1 | hp1
    · rw [htag] at hp1
      obtain ⟨g, hg, hg2, hg3⟩ := hI.tagToHandle p hp1
      refine ⟨g, ?_, hg2, hg3⟩
      have hfg : (if g.hid == hid then ({ g with ent := some e2 } : Handle) else g) = g := by
        rw [if_neg]
        simp only [beq_iff_eq]
        rw [hg2]
        exact htagfree p hp1
      rw [← hfg]
      exact List.mem_map_of_mem _ hg
    · rw [List.mem_singleton.mp hp1]
      refine ⟨{ h0 with ent := some e2 }, ?_, hh0, rfl⟩
      have hfg : (if h0.hid == hid then ({ h0 with ent := some e2 } : Handle) else h0)
          = { h0 with ent := some e2 } := by
        rw [if_pos]
        simp only [beq_iff_eq]
        exact hh0
      rw [← hfg]
      exact List.mem_map_of_mem _ hm0
  · intro h' hm' e' hent' hval'
    rcases List.mem_map.mp hm' with ⟨g, hg, hfg⟩
    by_cases hb : g.hid = hid
    · have hge : h' = { g with ent := some e2 } := by
        rw [← hfg, if_pos (beq_iff_eq.mpr hb)]
      rw [hge] at hent'
      have he2 : e' = e2 := (Option.some.inj hent').symm
      show alookup (r.tag ++ [(e2, hid)]) e' = some h'.hid
      rw [he2, htn, hge]
      show some hid = some g.hid
      rw [hb]
    · have hge : h' = g := by
        rw [← hfg, if_neg]
        simp only [beq_iff_eq]
        exact hb
      have hval2 : e' ∈ s.reg.entities ∨ e' = e2 := by
        have hv3 : e' ∈ r.entities := hval'
        rw [hent] at hv3
        rcases List.mem_append.mp hv3 with h1 | h1
        · exact Or.inl h1
        · exact Or.inr (List.mem_singleton.mp h1)
      rcases hval2 with hv1 | hv1
      · rw [hge] at hent'
        have hlk := hI.handleToTag g hg e' hent' hv1
        rw [← htag] at hlk
        show alookup (r.tag ++ [(e2, hid)]) e' = some h'.hid
        rw [hge]
        exact alookup_append_some _ _ _ _ hlk
      · exfalso
        rw [hge] at hent'
        rw [hv1] at hent'
        have hgh : g = h0 := hclaim_e2 g hg hent'
        apply hb
        rw [hgh]
        exact hh0
  · intro h1 hm1 h2 hm2 e' he1 he2
    rcases List.mem_map.mp hm1 with ⟨g1, hg1, hfg1⟩
    rcases List.mem_map.mp hm2 with ⟨g2, hg2, hfg2⟩
    by_cases hb1 : g1.hid = hid <;> by_cases hb2 : g2.hid = hid
    · have e1 : h1 = { g1 with ent := some e2 } := by
        rw [← hfg1, if_pos (beq_iff_eq.mpr hb1)]
      have e2q : h2 = { g2 with ent := some e2 } := by
        rw [← hfg2, if_pos (beq_iff_eq.mpr hb2)]
      have hgg : g1 = g2 :=
        handle_unique hI.hidsNodup hg1 hg2 (by rw [hb1, hb2])
      rw [e1, e2q, hgg]
    · exfalso
      have e1 : h1 = { g1 with ent := some e2 } := by
        rw [← hfg1, if_pos (beq_iff_eq.mpr hb1)]
      have e2q : h2 = g2 := by
        rw [← hfg2, if_neg]
        simp only [beq_iff_eq]
        exact hb2
      rw [e1] at he1
      have hee : e' = e2 := (Option.some.inj he1).symm
      rw [e2q] at he2
      rw [hee] at he2
      have hgh : g2 = h0 := hclaim_e2 g2 hg2 he2
      apply hb2
      rw [hgh]
      exact hh0
    · exfalso
      have e1 : h1 = g1 := by
        rw [← hfg1, if_neg]
        simp only [beq_iff_eq]
        exact hb1
      have e2q : h2 = { g2 with ent := some e2 } := by
        rw [← hfg2, if_pos (beq_iff_eq.mpr hb2)]
      rw [e2q] at he2
      have hee : e' = e2 := (Option.some.inj he2).symm
      rw [e1] at he1
      rw [hee] at he1
      have hgh : g1 = h0 := hclaim_e2 g1 hg1 he1
      apply hb1
      rw [hgh]
      exact hh0
    · have e1 : h1 = g1 := by
        rw [← hfg1, if_neg]
        simp only [beq_iff_eq]
        exact hb1
      have e2q : h2 = g2 := by
        rw [← hfg2, if_neg]
        simp only [beq_iff_eq]
        exact hb2
      rw [e1] at he1 ⊢
      rw [e2q] at he2 ⊢
      exact hI.claimsNodup g1 hg1 g2 hg2 e' he1 he2
  · intro h' hm' e' hent'
    rcases List.mem_map.mp hm' with ⟨g, hg, hfg⟩
    by_cases hb : g.hid = hid
    · have hge : h' = { g with ent := some e2 } := by
        rw [← hfg, if_pos (beq_iff_eq.mpr hb)]
      rw [hge] at hent'
      have hee : e' = e2 := (Option.some.inj hent').symm
      show e'.index < r.nextIndex
      rw [hee]
      exact hN2 e2 he2mem
    · have hge : h' = g := by
        rw [← hfg, if_neg]
        simp only [beq_iff_eq]
        exact hb
      rw [hge] at hent'
      show e'.index < r.nextIndex
      exact Nat.lt_of_lt_of_le (hI.claimsBound g hg e' hent') hmono

theorem processPending_invc (s : MState) (hid : Nat) (s2 : MState)
    (hI : InvC s) (hm : processPending s hid = some s2) : InvC s2 := by
  unfold processPending at hm
  cases hh : handleOf s hid with
  | none =>
    rw [hh] at hm
    simp only [Option.bind_eq_bind, Option.none_bind] at hm
    cases hm
  | some hd =>
    rw [hh] at hm
    simp only [Option.bind_eq_bind, Option.some_bind] at hm
    obtain ⟨hdm, hdhid⟩ := handleOf_mem hh
    have hdsome : (handleOf s hid).isSome = true := by
      rw [hh]
      rfl
    cases hent : hd.ent with
    | some e =>
      rw [hent] at hm
      dsimp only at hm
      by_cases h1 : entityToReference s (some e) = some hid
      · rw [if_pos h1] at hm
        cases hm
        exact hI
      · rw [if_neg h1] at hm
        by_cases h2 : s.reg.validIn e ∧ entityToReference s (some e) = none
        · rw [if_pos h2] at hm
          simp only [Option.bind_eq_bind, Option.bind_eq_some] at hm
          obtain ⟨r, hr, hm⟩ := hm
          obtain ⟨r2, hr2, hm⟩ := hm
          cases hm
          have htagnone : alookup s.reg.tag e = none := by
            cases hl : alookup s.reg.tag e with
            | none => rfl
            | some hidD =>
              exfalso
              obtain ⟨g, hgm, hg2, hg3⟩ := hI.tagToHandle (e, hidD) (alookup_mem hl)
              have hetr := h2.2
              unfold entityToReference at hetr
              dsimp only at hetr
              rw [hl] at hetr
              dsimp only at hetr
              have hsome : (handleOf s hidD).isSome = true := by
                have h4 := handleOf_isSome_of_mem hgm
                rw [hg2] at h4
                exact h4
              rw [if_pos hsome] at hetr
              cases hetr
          unfold Reg.emplaceTag at hr
          rw [if_pos ⟨h2.1, htagnone⟩] at hr
          cases hr
          have hv2 : ({ s.reg with tag := s.reg.tag ++ [(e, hid)] } : Reg).validIn e := h2.1
          unfold Reg.emplaceOrReplaceStatus at hr2
          rw [if_pos hv2] at hr2
          cases hr2
          have htn : alookup (s.reg.tag ++ [(e, hid)]) e = some hid := by
            rw [alookup_append_left _ _ _ htagnone]
            simp [alookup]
          refine ⟨hI.entIdx, hI.entBound, ?_, ?_, ?_, ?_, hI.compN, hI.compV,
            hI.hidsNodup, hI.hidsBound, ?_, ?_, hI.claimsNodup, hI.claimsBound⟩
          · refine keys_append_single_nodup _ _ _ hI.tagN ?_
            rw [← alookup_eq_none_iff]
            exact htagnone
          · intro p hp
            rcases List.mem_append.mp hp with hp1 | hp1
            · exact hI.tagV p hp1
            · rw [List.mem_singleton.mp hp1]
              exact h2.1
          · refine akeys_aset_nodup _ _ _ hI.statusN
          · intro p hp
            rcases mem_aset hp with hp1 | hp1
            · rw [hp1]
              exact h2.1
            · exact hI.statusV p hp1
          · intro p hp
            rcases List.mem_append.mp hp with hp1 | hp1
            · exact hI.tagToHandle p hp1
            · rw [List.mem_singleton.mp hp1]
              exact ⟨hd, hdm, hdhid, hent⟩
          · intro g hgm e' hent' hval'
            by_cases hee : e' = e
            · have hgd : g = hd := by
                refine hI.claimsNodup g hgm hd hdm e ?_ hent
                rw [← hee]
                exact hent'
              show alookup (s.reg.tag ++ [(e, hid)]) e' = some g.hid
              rw [hee, htn, hgd, hdhid]
            · have hlk := hI.handleToTag g hgm e' hent' hval'
              exact alookup_append_some _ _ _ _ hlk
        · rw [if_neg h2] at hm
          refine bindNewEntity_invc s hid (some e) s2 hI hd hdm hdhid ?_ ?_ hm
          · intro p hp hc
            obtain ⟨g, hgm, hg2, hg3⟩ := hI.tagToHandle p hp
            have hgh : g = hd := handle_unique hI.hidsNodup hgm hdm (by rw [hg2, hc, hdhid])
            rw [hgh, hent] at hg3
            have hpe : p.1 = e := (Option.some.inj hg3).symm
            have hp2 : (e, hid) ∈ s.reg.tag := by
              rw [← hpe, ← hc]
              exact hp
            have hl : alookup s.reg.tag e = some hid := mem_alookup_of_nodup hI.tagN hp2
            apply h1
            unfold entityToReference
            dsimp only
            rw [hl]
            dsimp only
            rw [if_pos hdsome]
          · intro h' hm' e' heq hent'
            have hee : e' = e := (Option.some.inj heq).symm
            rw [hee] at hent'
            exact hI.claimsNodup h' hm' hd hdm e hent' hent
    | none =>
      rw [hent] at hm
      dsimp only at hm
      refine bindNewEntity_invc s hid none s2 hI hd hdm hdhid ?_ ?_ hm
      · intro p hp hc
        obtain ⟨g, hgm, hg2, hg3⟩ := hI.tagToHandle p hp
        have hgh : g = hd := handle_unique hI.hidsNodup hgm hdm (by rw [hg2, hc, hdhid])
        rw [hgh, hent] at hg3
        cases hg3
      · intro h' hm' e' heq hent'
        cases heq

theorem decodeBlockR_reglike (facs : List Factory) (e : EntityId) (r0 : Reg) (b : EBlock)
    (r r2 : Reg) (he : e ∈ r0.entities) (hQ : RegLike r0 r)
    (h : decodeBlockR facs e r b = some r2) : RegLike r0 r2 := by
  obtain ⟨e1, e2q, e3, e4, e5, e6⟩ := hQ
  have hee : e ∈ r.entities := by
    rw [e1]
    exact he
  have hsetlike : ∀ r1 : Reg, RegLike r0 r1 →
      RegLike r0 (r1.setComp b.typeName e (b.payload.getD 0)) := by
    intro r1 hQ1
    obtain ⟨f1, f2, f3, f4, f5, f6⟩ := hQ1
    refine ⟨f1, f2, f3, f4, ?_, ?_⟩
    · intro nm
      by_cases hnm : nm = b.typeName
      · subst hnm
        rw [setComp_storage_self]
        exact akeys_aset_nodup _ _ _ (f5 b.typeName)
      · rw [setComp_storage_other _ _ _ _ _ hnm]
        exact f5 nm
    · intro nm p hp
      by_cases hnm : nm = b.typeName
      · subst hnm
        rw [setComp_storage_self] at hp
        rcases mem_aset hp with hp1 | hp1
        · rw [hp1]
          show e ∈ r1.entities
          rw [f1]
          exact he
        · exact f6 b.typeName p hp1
      · rw [setComp_storage_other _ _ _ _ _ hnm] at hp
        exact f6 nm p hp
  unfold decodeBlockR at h
  cases hf : findFactory facs b.typeName with
  | none =>
    rw [hf] at h
    cases h
    exact ⟨e1, e2q, e3, e4, e5, e6⟩
  | some f =>
    rw [hf] at h
    dsimp only at h
    by_cases hse : b.shouldExist = true
    · rw [if_pos hse] at h
      by_cases hhc : r.hasComp b.typeName e = true
      · rw [if_pos hhc] at h
        simp only [Option.bind_eq_bind, Option.some_bind] at h
        cases h
        exact hsetlike r ⟨e1, e2q, e3, e4, e5, e6⟩
      · rw [if_neg hhc] at h
        unfold Reg.emplaceComp at h
        rw [if_pos ⟨hee, Bool.eq_false_iff.mpr hhc⟩] at h
        simp only [Option.bind_eq_bind, Option.some_bind] at h
        cases h
        refine hsetlike _ ⟨e1, e2q, e3, e4, ?_, ?_⟩
        · intro nm
          by_cases hnm : nm = b.typeName
          · subst hnm
            rw [storageOf_update_self]
            rw [akeys, List.map_append]
            simp only [List.map_cons, List.map_nil]
            rw [List.nodup_append]
            refine ⟨e5 b.typeName, List.nodup_singleton _, ?_⟩
            intro x hx hy
            simp only [List.mem_singleton] at hy
            rw [hy] at hx
            exact hasComp_false_notin r b.typeName e (Bool.eq_false_iff.mpr hhc) hx
          · rw [storageOf_update_other _ _ _ _ hnm]
            exact e5 nm
        · intro nm p hp
          by_cases hnm : nm = b.typeName
          · subst hnm
            rw [storageOf_update_self] at hp
            rcases List.mem_append.mp hp with hp1 | hp1
            · exact e6 b.typeName p hp1
            · rw [List.mem_singleton.mp hp1]
              exact hee
          · rw [storageOf_update_other _ _ _ _ hnm] at hp
            exact e6 nm p hp
    · rw [if_neg hse] at h
      by_cases hhc : r.hasComp b.typeName e = true
      · rw [if_pos hhc] at h
        unfold Reg.removeComp at h
        have hv : r.validIn e := hee
        rw [if_pos hv] at h
        cases h
        refine ⟨e1, e2q, e3, e4, ?_, ?_⟩
        · intro nm
          by_cases hnm : nm = b.typeName
          · subst hnm
            rw [storageOf_update_self]
            exact akeys_aremove_nodup _ _ (e5 b.typeName)
          · rw [storageOf_update_other _ _ _ _ hnm]
            exact e5 nm
        · intro nm p hp
          by_cases hnm : nm = b.typeName
          · subst hnm
            rw [storageOf_update_self] at hp
            exact e6 b.typeName p (mem_aremove hp)
          · rw [storageOf_update_other _ _ _ _ hnm] at hp
            exact e6 nm p hp
      · rw [if_neg hhc] at h
        cases h
        exact ⟨e1, e2q, e3, e4, e5, e6⟩

theorem applyPendingDecode_minv (s : MState) (p : Nat × List EBlock) (s2 : MState)
    (hI : MInv s) (hm : applyPendingDecode s p = some s2) : MInv s2 := by
  unfold applyPendingDecode at hm
  cases hh : handleOf s p.1 with
  | none =>
    rw [hh] at hm
    cases hm
    exact hI
  | some hd =>
    rw [hh] at hm
    dsimp only at hm
    cases hent : hd.ent with
    | none =>
      rw [hent] at hm
      cases hm
      exact hI
    | some e =>
      rw [hent] at hm
      dsimp only at hm
      cases hd2 : decodeEntityR s.factories s.reg e p.2 with
      | none =>
        rw [hd2] at hm
        cases hm
      | some r =>
        rw [hd2] at hm
        cases hm
        unfold decodeEntityR at hd2
        by_cases hv : s.reg.validIn e
        · rw [if_pos hv] at hd2
          have hQ : RegLike s.reg r :=
            foldlM_inv (RegLike s.reg) _ p.2
              (fun b c c2 hc hx => decodeBlockR_reglike s.factories e s.reg b c c2 hv hc hx)
              s.reg r ⟨rfl, rfl, rfl, rfl, hI.core.compN, hI.core.compV⟩ hd2
          have h2 := minv_reg_swap s r s.factories hI hQ.1 hQ.2.1 hQ.2.2.1 hQ.2.2.2.1
            hQ.2.2.2.2.1 hQ.2.2.2.2.2
          exact h2
        · rw [if_neg hv] at hd2
          cases hd2
          exact hI

theorem sweepOne_minv (s : MState) (e : EntityId) (s2 : MState)
    (hI : MInv s) (hm : sweepOne s e = some s2) : MInv s2 := by
  unfold sweepOne at hm
  dsimp only at hm
  by_cases h1 : alookup s.reg.tag e = none ∧ alookup s.reg.status e = some true
  · rw [if_pos h1] at hm
    cases hmat : materializeEntity s e with
    | none =>
      rw [hmat] at hm
      cases hm
    | some q =>
      rw [hmat] at hm
      simp only [Option.map_some'] at hm
      cases hm
      exact materializeEntity_minv s e q.1 q.2 hI hmat
  · rw [if_neg h1] at hm
    by_cases h2 : alookup s.reg.tag e ≠ none ∧
        (alookup s.reg.status e = none ∨ alookup s.reg.status e = some false)
    · rw [if_pos h2] at hm
      exact dematerializeEntity_minv s e s2 hI hm
    · rw [if_neg h2] at hm
      cases hm
      exact hI

theorem syncStep3_minv (s : MState) (s2 : MState)
    (hI : MInv s) (hm : syncStep3 s = some s2) : MInv s2 := by
  unfold syncStep3 at hm
  by_cases hd : s.registryDirty = true
  · rw [if_pos hd] at hm
    unfold ensureEntitiesMaterialized at hm
    have hI2 : MInv { s with registryDirty := false } :=
      minv_untouched s _ hI rfl rfl rfl rfl
    exact foldlM_inv MInv sweepOne _
      (fun x c c2 hc hx => sweepOne_minv c x c2 hc hx) _ s2 hI2 hm
  · rw [if_neg hd] at hm
    cases hm
    exact hI

theorem synchronize_minv (s s2 : MState) (hI : MInv s) (hm : synchronize s = some s2) :
    MInv s2 := by
  unfold synchronize at hm
  by_cases hg : s.syncInProgress = true
  · rw [if_pos hg] at hm
    cases hm
    exact hI
  · rw [if_neg hg] at hm
    simp only [Option.bind_eq_bind, Option.bind_eq_some] at hm
    obtain ⟨t1, h1, hm⟩ := hm
    obtain ⟨t2, h2, hm⟩ := hm
    obtain ⟨t3, h3, hm⟩ := hm
    cases hm
    have i0 : InvC { s with syncInProgress := true } :=
      invc_untouched s _ hI.core rfl rfl rfl
    have i1 : InvC t1 :=
      foldlM_inv InvC processPending _
        (fun x c c2 hc hx => processPending_invc c x c2 hc hx) _ t1 i0 h1
    have i1b : MInv { t1 with pendingAdds := [] } := by
      refine ⟨invc_untouched t1 _ i1 rfl rfl rfl, ?_, ?_⟩
      · intro hid hp
        cases hp
      · intro p hp hc
        cases hc
    have i2 : MInv t2 :=
      foldlM_inv MInv applyPendingDecode _
        (fun x c c2 hc hx => applyPendingDecode_minv c x c2 hc hx) _ t2 i1b h2
    have i2b : MInv { t2 with pendingDecodes := [] } := minv_untouched t2 _ i2 rfl rfl rfl rfl
    have i3 : MInv t3 := syncStep3_minv _ t3 i2b h3
    exact minv_untouched t3 _ i3 rfl rfl rfl rfl

/-- The manager operations the claim quantifies over: materialize,
dematerialize, the UI-queue commit, and the synchronize pump. -/
inductive MOp where
  | matOp : EntityId → MOp
  | dematOp : EntityId → MOp
  | commitOp : MOp
  | syncOp : MOp
deriving Repr, DecidableEq

/-- Dispatch one manager operation. -/
def applyOp (o : MOp) (s : MState) : Option MState :=
  match o with
  | .matOp e => (materializeEntity s e).map Prod.fst
  | .dematOp e => dematerializeEntity s e
  | .commitOp => commitActions s
  | .syncOp => synchronize s

/-- C2 (amended): under the manager invariant, every completed
MaterializeEntity, DematerializeEntity, CommitActions, and Synchronize
call preserves the invariant, and therefore the claim's triple
equivalence — materialization state, presence of the EntityMaterialized
tag, and existence of a live EntityReference handle claiming the entity
agree on every valid entity — holds after the call.  The claim's
unrestricted "at all times ... maintained through all entity lifecycle
operations and serialization operations" is refuted by the registry
decode counterexample, which breaks the equivalence until the next
Synchronize. -/
theorem c2_amended (o : MOp) (s s2 : MState) (hI : MInv s)
    (hm : applyOp o s = some s2) : MInv s2 ∧ TripleEq s2 := by
  have h2 : MInv s2 := by
    cases o with
    | matOp e =>
      unfold applyOp at hm
      dsimp only at hm
      cases hmat : materializeEntity s e with
      | none =>
        rw [hmat] at hm
        cases hm
      | some q =>
        rw [hmat] at hm
        simp only [Option.map_some'] at hm
        cases hm
        exact materializeEntity_minv s e q.1 q.2 hI hmat
    | dematOp e => exact dematerializeEntity_minv s e s2 hI hm
    | commitOp => exact commitActions_minv s s2 hI hm
    | syncOp => exact synchronize_minv s s2 hI hm
  exact ⟨h2, invC_tripleEq s2 h2.core⟩

/-- Concrete input for the amended-claim witness: one live entity, no
tags, no handles, nothing pending. -/
def c2wit : MState :=
  { reg := { entities := [⟨0, 0⟩], nextIndex := 1, tag := [], status := [], comps := [] }
    factories := []
    handles := []
    nextHid := 0
    pendingAdds := []
    pendingDecodes := []
    registryDirty := false
    syncInProgress := false
    pendingMats := []
    pendingCreates := []
    pendingDestroys := []
    pendingEditNames := [] }

/-- The state `MaterializeEntity` produces from [c2wit]. -/
def c2wit2 : MState :=
  { reg := { entities := [⟨0, 0⟩], nextIndex := 1, tag := [(⟨0, 0⟩, 0)],
             status := [(⟨0, 0⟩, true)], comps := [] }
    factories := []
    handles := [⟨0, some ⟨0, 0⟩⟩]
    nextHid := 1
    pendingAdds := []
    pendingDecodes := []
    registryDirty := false
    syncInProgress := false
    pendingMats := []
    pendingCreates := []
    pendingDestroys := []
    pendingEditNames := [] }

theorem c2_amended_witness :
    MInv c2wit ∧ applyOp (MOp.matOp ⟨0, 0⟩) c2wit = some c2wit2 ∧
      MInv c2wit2 ∧ TripleEq c2wit2 := by
  have hI : MInv c2wit := by
    refine ⟨⟨?_, ?_, ?_, ?_, ?_, ?_, ?_, ?_, ?_, ?_, ?_, ?_, ?_, ?_⟩, ?_, ?_⟩
    · decide
    · decide
    · decide
    · intro p hp
      cases hp
    · decide
    · intro p hp
      cases hp
    · intro nm
      exact List.nodup_nil
    · intro nm p hp
      cases hp
    · decide
    · intro h hm
      cases hm
    · intro p hp
      cases hp
    · intro h hm
      cases hm
    · intro h1 hm1
      cases hm1
    · intro h hm
      cases hm
    · intro hid hp
      cases hp
    · intro p hp
      cases hp
  have hres : applyOp (MOp.matOp ⟨0, 0⟩) c2wit = some c2wit2 := by decide
  exact ⟨hI, hres, c2_amended (MOp.matOp ⟨0, 0⟩) c2wit c2wit2 hI hres⟩
